import Mathlib

/-!
Verification of the glob-matching path trie in `pkg/htrie/glob_path_node.go`
(go-camo), together with a model of the signature codec described in the
design document.

The Go trie is a tree of heap-allocated `globPathNode` records: every child
is allocated freshly by `newGlobPathNode` and installed in exactly one
parent map slot, so the reachable object graph is a tree and the mutating
builder `addPath` is embedded as a pure function that rebuilds the spine it
walks.  The `oneShot` pointer of a Go node always refers to the node stored
in its (unique) map slot, and `addPath` reassigns it at every node it
traverses, so the embedding stores the up-to-date child value in the
`oneShot` field at exactly the moments the Go code assigns the pointer.

The two query functions `checkPath` and `globConsume` are mutually
recursive through the candidate string.  They are embedded fuel-indexed
(`checkPathF` etc., structurally recursive in the fuel, hence fully
computable by the kernel); the total functions are the fuel versions run
with fuel `4 * length + k`, and the adequacy theorem proved below shows
this fuel always suffices, which is also the termination claim about the
mutual recursion.

Strings are lists of byte values (`List Nat`); `s[index:]` in the Go code
corresponds to the list suffix passed to the embedded functions.
-/

/-- The reserved wildcard key, `globChar byte = 1` in the source. -/
def globChar : Nat := 1

/-- ASCII case folding as done at lines 44-47 and 106-109 and 161-163 of
the source: when `icase` is set, bytes in `'A'..'Z'` (65..90) get 32 added. -/
def foldChar (icase : Bool) (ch : Nat) : Nat :=
  if icase ∧ 65 ≤ ch ∧ ch ≤ 90 then ch + 32 else ch

/-- One node of the glob path trie, mirroring struct `globPathNode`.
`subtMapNil` models whether the Go `subtrees` map is the nil map (a nil map
reads as empty; `addPath` refuses to run on a receiver with a nil map). -/
inductive GPN : Type where
  | mk (subtrees : List (Nat × GPN)) (oneShot : Option GPN) (isGlob : Bool)
       (canMatch : Bool) (hasGlobChild : Bool) (nodeChar : Nat) (icase : Bool)
       (subtMapNil : Bool)

/-- Field access: the child map, as an association list with distinct keys. -/
def GPN.subtrees : GPN → List (Nat × GPN)
  | .mk su _ _ _ _ _ _ _ => su

/-- Field access: the single-child fast-path pointer. -/
def GPN.oneShot : GPN → Option GPN
  | .mk _ os _ _ _ _ _ _ => os

/-- Field access: is this node a wildcard node. -/
def GPN.isGlob : GPN → Bool
  | .mk _ _ ig _ _ _ _ _ => ig

/-- Field access: does at least one inserted pattern end at this node. -/
def GPN.canMatch : GPN → Bool
  | .mk _ _ _ cm _ _ _ _ => cm

/-- Field access: does this node have a wildcard child. -/
def GPN.hasGlobChild : GPN → Bool
  | .mk _ _ _ _ hg _ _ _ => hg

/-- Field access: the (folded) character stored at this node. -/
def GPN.nodeChar : GPN → Nat
  | .mk _ _ _ _ _ nc _ _ => nc

/-- Field access: the case-insensitivity flag. -/
def GPN.icase : GPN → Bool
  | .mk _ _ _ _ _ _ ic _ => ic

/-- Field access: whether the Go child map is the nil map. -/
def GPN.subtMapNil : GPN → Bool
  | .mk _ _ _ _ _ _ _ nil => nil

/-- Update the `nodeChar` field (line 61 of the source). -/
def GPN.withNodeChar : GPN → Nat → GPN
  | .mk su os ig cm hg _ ic nil, nc => .mk su os ig cm hg nc ic nil

/-- Set the `isGlob` flag (line 74 of the source). -/
def GPN.withIsGlob : GPN → GPN
  | .mk su os _ cm hg nc ic nil => .mk su os true cm hg nc ic nil

/-- Go map read `m[k]` on the association list. -/
def lookupA : List (Nat × GPN) → Nat → Option GPN
  | [], _ => none
  | (k, v) :: rest, key => if k = key then some v else lookupA rest key

/-- Go map write `m[k] = v` on the association list: replace the entry with
key `k`, or append a fresh entry. -/
def updateA : List (Nat × GPN) → Nat → GPN → List (Nat × GPN)
  | [], k, v => [(k, v)]
  | (k', v') :: rest, k, v =>
    if k' = k then (k, v) :: rest else (k', v') :: updateA rest k v

/-- Constructor `newGlobPathNode` (lines 215-244): empty non-nil child map,
everything else zeroed, `icase` as given. -/
def newGlobPathNode (icase : Bool) : GPN :=
  .mk [] none false false false 0 icase false

/-- The loop body of `addPath` (lines 37-81), embedded as recursion over the
pattern.  `ic` is the icase flag of the receiver root (the Go code reads
`gpn.icase` and allocates children with `newGlobPathNode(gpn.icase)`).
Per character: fold case (45-47), map `'*'` (42) to the `globChar` key
(49-54), fetch or allocate the child (56-59), store the folded character in
the child (61), rebuild the single-child fast-path pointer from the new map
size (63-68), and set the wildcard flags when the character was `'*'`
(72-75); at the end of the pattern mark the final node `canMatch` (80). -/
def addPathLoop (ic : Bool) : GPN → List Nat → GPN
  | t, [] =>
    match t with
    | .mk su os ig _ hg nc tic nil => .mk su os ig true hg nc tic nil
  | t, ch :: rest =>
    let part := foldChar ic ch
    let c := if part = 42 then globChar else part
    let child0 :=
      match lookupA t.subtrees c with
      | some v => v
      | none => newGlobPathNode ic
    let child1 := child0.withNodeChar part
    let child2 := if part = 42 then child1.withIsGlob else child1
    let child3 := addPathLoop ic child2 rest
    let subt := updateA t.subtrees c child3
    GPN.mk subt (if subt.length = 1 then some child3 else none)
      t.isGlob t.canMatch
      (if part = 42 then true else t.hasGlobChild)
      t.nodeChar t.icase t.subtMapNil

/-- Method `addPath` (lines 32-82): fails exactly when the receiver's child
map is nil (lines 33-35), in which case it returns before touching any
node; otherwise it runs the insertion loop. -/
def addPath (gpn : GPN) (s : List Nat) : Except String GPN :=
  if gpn.subtMapNil then .error "got nil <gpn>.subtrees in receiver"
  else .ok (addPathLoop gpn.icase gpn s)

/-- Build a trie from a root created by `newGlobPathNode icase` by inserting
the given patterns in order (how callers of the package use the trie). -/
def buildTrie (icase : Bool) (ps : List (List Nat)) : GPN :=
  ps.foldl (fun t p => addPathLoop t.icase t p) (newGlobPathNode icase)

mutual
/-- Fuel-indexed `checkPath` (lines 155-213): dispatches to the walk loop
with the receiver's icase flag. -/
def checkPathF : Nat → GPN → List Nat → Option Bool
  | 0, _, _ => none
  | n + 1, g, s => checkLoopF n g.icase g s

/-- Fuel-indexed body of the `checkPath` walk loop (lines 158-212).  Per
character: fold (161-164); if the node has a wildcard child, try wildcard
consumption from the current position first (167-174); otherwise use the
single-child fast path when set (178-194): a fast-path child whose stored
character equals the `globChar` sentinel fails the branch (181-183), a
matching stored character advances (186-189), anything else fails (193);
otherwise fall back to the keyed map lookup (198-202).  At the end of the
candidate accept iff the final node is `canMatch` or `isGlob` (205-212). -/
def checkLoopF : Nat → Bool → GPN → List Nat → Option Bool
  | 0, _, _, _ => none
  | _ + 1, _, cur, [] => some (cur.canMatch || cur.isGlob)
  | n + 1, ic, cur, ch :: rest =>
    let part := foldChar ic ch
    match (if cur.hasGlobChild then
             match lookupA cur.subtrees globChar with
             | some v => globConsumeF n v (ch :: rest)
             | none => some false
           else some false) with
    | none => none
    | some true => some true
    | some false =>
      match cur.oneShot with
      | some os =>
        if os.nodeChar = globChar then some false
        else if os.nodeChar = part then checkLoopF n ic os rest
        else some false
      | none =>
        match lookupA cur.subtrees part with
        | some v => checkLoopF n ic v rest
        | none => some false

/-- Fuel-indexed `globConsume` entry (lines 84-98): a wildcard node that is
itself an accepting node consumes the rest of the candidate immediately
(87-89); otherwise scan, with one-shot lookahead armed iff the wildcard
node has a single child (91-98). -/
def globConsumeF : Nat → GPN → List Nat → Option Bool
  | 0, _, _ => none
  | n + 1, g, s =>
    if g.canMatch then some true else globLoopF n g g.oneShot.isSome s

/-- Fuel-indexed scan loop of `globConsume` (lines 103-152).  Per character:
fold with the wildcard node's icase (106-109); with stepping armed, skip
characters differing from the single child's stored character (113-120);
try to resume a normal walk from the next position through the child keyed
by the current character (122-130); at the last character fail unless the
wildcard node itself accepts (132-142); otherwise re-arm stepping and
continue (146-148); an exhausted candidate is a failure (152).  The `none`
branch of the skip test is unreachable: the Go code dereferences the
one-shot pointer there, and stepping is armed only when it is non-nil. -/
def globLoopF : Nat → GPN → Bool → List Nat → Option Bool
  | 0, _, _, _ => none
  | _ + 1, _, _, [] => some false
  | n + 1, g, step, ch :: rest =>
    let part := foldChar g.icase ch
    if step && (match g.oneShot with
                | some os => decide (part ≠ os.nodeChar)
                | none => false) then
      globLoopF n g step rest
    else
      match (match lookupA g.subtrees part with
             | some v => checkPathF n v rest
             | none => some false) with
      | none => none
      | some true => some true
      | some false =>
        match rest with
        | [] => some g.canMatch
        | _ :: _ => globLoopF n g g.oneShot.isSome rest
end

/-- Total `checkPath`: the fuel version at the fuel bound proved adequate
below.  Callers invoke the Go method as `checkPath(s, 0, len(s))`. -/
def checkPath (g : GPN) (s : List Nat) : Bool :=
  (checkPathF (4 * s.length + 4) g s).getD false

/-- Total walk loop of `checkPath`. -/
def checkLoop (ic : Bool) (cur : GPN) (s : List Nat) : Bool :=
  (checkLoopF (4 * s.length + 3) ic cur s).getD false

/-- Total `globConsume`. -/
def globConsume (g : GPN) (s : List Nat) : Bool :=
  (globConsumeF (4 * s.length + 2) g s).getD false

/-- Total scan loop of `globConsume`. -/
def globLoop (g : GPN) (step : Bool) (s : List Nat) : Bool :=
  (globLoopF (4 * s.length + 1) g step s).getD false

mutual
/-- The specification's fast-path-free variant of `checkPathF`: identical
to the source walk except that the single-child fast path (lines 176-194)
is omitted and every character is resolved by the keyed map lookup.  The
design document asserts this variant is observationally equivalent to the
real walk. -/
def checkPathSlowF : Nat → GPN → List Nat → Option Bool
  | 0, _, _ => none
  | n + 1, g, s => checkLoopSlowF n g.icase g s

/-- Walk loop of the fast-path-free variant: lines 158-174 and 198-212 of
the source, with the one-shot block (176-194) removed. -/
def checkLoopSlowF : Nat → Bool → GPN → List Nat → Option Bool
  | 0, _, _, _ => none
  | _ + 1, _, cur, [] => some (cur.canMatch || cur.isGlob)
  | n + 1, ic, cur, ch :: rest =>
    let part := foldChar ic ch
    match (if cur.hasGlobChild then
             match lookupA cur.subtrees globChar with
             | some v => globConsumeSlowF n v (ch :: rest)
             | none => some false
           else some false) with
    | none => none
    | some true => some true
    | some false =>
      match lookupA cur.subtrees part with
      | some v => checkLoopSlowF n ic v rest
      | none => some false

/-- `globConsume` of the fast-path-free variant (the scan itself is kept
as in the source; only the resumed walks use the variant). -/
def globConsumeSlowF : Nat → GPN → List Nat → Option Bool
  | 0, _, _ => none
  | n + 1, g, s =>
    if g.canMatch then some true else globLoopSlowF n g g.oneShot.isSome s

/-- Scan loop of the fast-path-free variant. -/
def globLoopSlowF : Nat → GPN → Bool → List Nat → Option Bool
  | 0, _, _, _ => none
  | _ + 1, _, _, [] => some false
  | n + 1, g, step, ch :: rest =>
    let part := foldChar g.icase ch
    if step && (match g.oneShot with
                | some os => decide (part ≠ os.nodeChar)
                | none => false) then
      globLoopSlowF n g step rest
    else
      match (match lookupA g.subtrees part with
             | some v => checkPathSlowF n v rest
             | none => some false) with
      | none => none
      | some true => some true
      | some false =>
        match rest with
        | [] => some g.canMatch
        | _ :: _ => globLoopSlowF n g g.oneShot.isSome rest
end

/-- Total fast-path-free `checkPath` variant. -/
def checkPathSlow (g : GPN) (s : List Nat) : Bool :=
  (checkPathSlowF (4 * s.length + 4) g s).getD false

/-- Reference walker used in proofs: plain keyed descent over raw bytes,
accepting iff the final node is `canMatch`.  This is the textbook
literal-trie semantics a glob-free case-sensitive trie should realize. -/
def walkLit : GPN → List Nat → Bool
  | t, [] => t.canMatch
  | t, ch :: rest =>
    match lookupA t.subtrees ch with
    | some c => walkLit c rest
    | none => false

/-- Keyed descent returning the node reached along the given key list. -/
def descend : GPN → List Nat → Option GPN
  | t, [] => some t
  | t, ch :: rest =>
    match lookupA t.subtrees ch with
    | some c => descend c rest
    | none => none

/-- There is a keyed path for the given characters whose nodes carry those
characters as `nodeChar`, ending in an accepting node. -/
def pathOK : GPN → List Nat → Prop
  | t, [] => t.canMatch = true
  | t, ch :: rest =>
    ∃ c, lookupA t.subtrees ch = some c ∧ c.nodeChar = ch ∧ pathOK c rest

/-- A per-node predicate holds at a node and, hereditarily, at every child
in its subtree map. -/
inductive EveryNode (P : GPN → Prop) : GPN → Prop where
  | mk (t : GPN) (hP : P t)
       (hc : ∀ k c, (k, c) ∈ t.subtrees → EveryNode P c) : EveryNode P t

/-- The single-child fast-path invariant at one node: the `oneShot` field
holds the unique child exactly when the map has exactly one entry, and is
unset otherwise. -/
def oneShotOK (t : GPN) : Prop :=
  match t.subtrees with
  | [kc] => t.oneShot = some kc.2
  | _ => t.oneShot = none

/-- Per-node facts of a glob-free case-sensitive trie: no wildcard flags,
and every child sits under a non-sentinel key equal to its stored char. -/
def flagsLitOK (t : GPN) : Prop :=
  t.isGlob = false ∧ t.hasGlobChild = false ∧
    ∀ kc ∈ t.subtrees, kc.1 ≠ globChar ∧ kc.2.nodeChar = kc.1

/-- Per-node fact: the node's icase flag has the given value. -/
def icaseIs (b : Bool) (t : GPN) : Prop := t.icase = b

/-- Case folding of a whole string. -/
def caseFold (s : List Nat) : List Nat := s.map (foldChar true)

/-! ## Heap-level embedding of the two query functions

For the read-only (frame) property the tree embedding is too abstract: a
pure function cannot even express a heap write.  The functions below are
the same two queries, re-embedded over an explicit store of nodes
addressed by index, with the store threaded through every call exactly
where the Go code could have written to it; the frame theorem then states
that the store coming out of a query is the store that went in. -/

/-- A heap node: as `GPN`, but children are heap addresses. -/
structure HNode where
  subtrees : List (Nat × Nat)
  oneShot : Option Nat
  isGlob : Bool
  canMatch : Bool
  hasGlobChild : Bool
  nodeChar : Nat
  icase : Bool

/-- Association-list lookup for heap nodes' child maps. -/
def lookupH : List (Nat × Nat) → Nat → Option Nat
  | [], _ => none
  | (k, v) :: rest, key => if k = key then some v else lookupH rest key

/-- Read a node from the store (out-of-range reads give a zero node). -/
def hGet (h : List HNode) (i : Nat) : HNode :=
  h.getD i ⟨[], none, false, false, false, 0, false⟩

mutual
/-- Store-threading `checkPath` (lines 155-213) over the heap embedding. -/
def checkPathHF : Nat → List HNode → Nat → List Nat → Option (Bool × List HNode)
  | 0, _, _, _ => none
  | n + 1, h, g, s => checkLoopHF n h (hGet h g).icase g s

/-- Store-threading walk loop of `checkPath` over the heap embedding. -/
def checkLoopHF : Nat → List HNode → Bool → Nat → List Nat → Option (Bool × List HNode)
  | 0, _, _, _, _ => none
  | _ + 1, h, _, cur, [] => some ((hGet h cur).canMatch || (hGet h cur).isGlob, h)
  | n + 1, h, ic, cur, ch :: rest =>
    let part := foldChar ic ch
    match (if (hGet h cur).hasGlobChild then
             match lookupH (hGet h cur).subtrees globChar with
             | some v => globConsumeHF n h v (ch :: rest)
             | none => some (false, h)
           else some (false, h)) with
    | none => none
    | some (true, h1) => some (true, h1)
    | some (false, h1) =>
      match (hGet h1 cur).oneShot with
      | some os =>
        if (hGet h1 os).nodeChar = globChar then some (false, h1)
        else if (hGet h1 os).nodeChar = part then checkLoopHF n h1 ic os rest
        else some (false, h1)
      | none =>
        match lookupH (hGet h1 cur).subtrees part with
        | some v => checkLoopHF n h1 ic v rest
        | none => some (false, h1)

/-- Store-threading `globConsume` (lines 84-98) over the heap embedding. -/
def globConsumeHF : Nat → List HNode → Nat → List Nat → Option (Bool × List HNode)
  | 0, _, _, _ => none
  | n + 1, h, g, s =>
    if (hGet h g).canMatch then some (true, h)
    else globLoopHF n h g (hGet h g).oneShot.isSome s

/-- Store-threading scan loop of `globConsume` over the heap embedding. -/
def globLoopHF : Nat → List HNode → Nat → Bool → List Nat → Option (Bool × List HNode)
  | 0, _, _, _, _ => none
  | _ + 1, h, _, _, [] => some (false, h)
  | n + 1, h, g, step, ch :: rest =>
    let part := foldChar (hGet h g).icase ch
    if step && (match (hGet h g).oneShot with
                | some os => decide (part ≠ (hGet h os).nodeChar)
                | none => false) then
      globLoopHF n h g step rest
    else
      match (match lookupH (hGet h g).subtrees part with
             | some v => checkPathHF n h v rest
             | none => some (false, h)) with
      | none => none
      | some (true, h1) => some (true, h1)
      | some (false, h1) =>
        match rest with
        | [] => some ((hGet h1 g).canMatch, h1)
        | _ :: _ => globLoopHF n h1 g (hGet h1 g).oneShot.isSome rest
end

/-- The child node `addPath` is about to descend into (lines 56-61 and 72-75
of the source): the existing or freshly allocated child, with the folded
character stored and the wildcard flag set when appropriate. -/
def stepChild (ic : Bool) (t : GPN) (part : Nat) : GPN :=
  let c := if part = 42 then globChar else part
  let child0 :=
    match lookupA t.subtrees c with
    | some v => v
    | none => newGlobPathNode ic
  let child1 := child0.withNodeChar part
  if part = 42 then child1.withIsGlob else child1

/-- Modelled from the spec: the signature codec (package `encoding`, used by
the tests as `encoding.B64EncodeURL`) is not among the given sources.  Its
contract: the token is the pair of URL-safe base64 path segments
`(tag, encoded URL)`, where the tag is a keyed MAC of the URL bytes; decode
re-derives the tag from the key and the embedded URL and compares.  This is
the value of one base64url (RFC 4648 `-`/`_` alphabet, unpadded) digit. -/
def b64Char (n : Nat) : Nat :=
  if n < 26 then 65 + n
  else if n < 52 then 97 + (n - 26)
  else if n < 62 then 48 + (n - 52)
  else if n = 62 then 45
  else 95

/-- Modelled from the spec: inverse of one base64url digit; `none` on a
character outside the alphabet (a malformed token). -/
def b64CharInv (c : Nat) : Option Nat :=
  if 65 ≤ c ∧ c ≤ 90 then some (c - 65)
  else if 97 ≤ c ∧ c ≤ 122 then some (c - 97 + 26)
  else if 48 ≤ c ∧ c ≤ 57 then some (c - 48 + 52)
  else if c = 45 then some 62
  else if c = 95 then some 63
  else none

/-- Modelled from the spec: unpadded base64url encoding of a byte string
(three bytes become four digits; one or two trailing bytes become two or
three digits). -/
def b64Encode : List Nat → List Nat
  | [] => []
  | [b1] => [b64Char (b1 / 4), b64Char (b1 % 4 * 16)]
  | [b1, b2] =>
    [b64Char (b1 / 4), b64Char (b1 % 4 * 16 + b2 / 16), b64Char (b2 % 16 * 4)]
  | b1 :: b2 :: b3 :: rest =>
    b64Char (b1 / 4) :: b64Char (b1 % 4 * 16 + b2 / 16) ::
      b64Char (b2 % 16 * 4 + b3 / 64) :: b64Char (b3 % 64) :: b64Encode rest

/-- Modelled from the spec: unpadded base64url decoding; `none` (malformed)
on characters outside the alphabet or an impossible length. -/
def b64Decode : List Nat → Option (List Nat)
  | [] => some []
  | [_] => none
  | [c1, c2] =>
    match b64CharInv c1, b64CharInv c2 with
    | some n1, some n2 => some [n1 * 4 + n2 / 16]
    | _, _ => none
  | [c1, c2, c3] =>
    match b64CharInv c1, b64CharInv c2, b64CharInv c3 with
    | some n1, some n2, some n3 => some [n1 * 4 + n2 / 16, n2 % 16 * 16 + n3 / 4]
    | _, _, _ => none
  | c1 :: c2 :: c3 :: c4 :: rest =>
    match b64CharInv c1, b64CharInv c2, b64CharInv c3, b64CharInv c4,
        b64Decode rest with
    | some n1, some n2, some n3, some n4, some bs =>
      some ((n1 * 4 + n2 / 16) :: (n2 % 16 * 16 + n3 / 4) :: (n3 % 4 * 64 + n4) :: bs)
    | _, _, _, _, _ => none

/-- Modelled from the spec: the keyed MAC over the URL bytes, abstracted as
a concrete deterministic keyed digest producing eight bytes (the MAC's
only properties used by the round-trip contract are determinism and a
fixed byte-string output; the cryptographic strength of the real HMAC is
out of scope of a functional model). -/
def hmacDigest (key msg : List Nat) : List Nat :=
  let hv := (key ++ msg).foldl
    (fun a b => (a * 131 + b + 1) % 18446744073709551616) 5381
  [hv % 256, hv / 256 % 256, hv / 65536 % 256, hv / 16777216 % 256,
   hv / 4294967296 % 256, hv / 1099511627776 % 256,
   hv / 281474976710656 % 256, hv / 72057594037927936 % 256]

/-- Modelled from the spec: `encode(key, targetURL) -> token`, a
deterministic function producing the pair of URL-safe path segments
`(base64url tag, base64url URL)`. -/
def B64EncodeURL (key url : List Nat) : List Nat × List Nat :=
  (b64Encode (hmacDigest key url), b64Encode url)

/-- Modelled from the spec: `decode(key, token)`: reject a malformed
segment before any MAC comparison, recompute the tag over the embedded URL
bytes and the key, reject on mismatch, and otherwise return the URL. -/
def B64DecodeURL (key : List Nat) (tok : List Nat × List Nat) :
    Except String (List Nat) :=
  match b64Decode tok.2 with
  | none => .error "malformed token"
  | some urlBytes =>
    match b64Decode tok.1 with
    | none => .error "malformed token"
    | some tag =>
      if tag = hmacDigest key urlBytes then .ok urlBytes
      else .error "invalid signature"

def exampleUpper : List Nat := [69,120,97,109,112,108,101,46,67,79,77]

def exampleLower : List Nat := [101,120,97,109,112,108,101,46,99,111,109]

theorem canonAux : ∀ n : Nat,
    (∀ g s, 4 * s.length + 4 ≤ n → checkPathF n g s = some (checkPath g s)) ∧
    (∀ ic cur s, 4 * s.length + 3 ≤ n → checkLoopF n ic cur s = some (checkLoop ic cur s)) ∧
    (∀ g s, 4 * s.length + 2 ≤ n → globConsumeF n g s = some (globConsume g s)) ∧
    (∀ g st s, 4 * s.length + 1 ≤ n → globLoopF n g st s = some (globLoop g st s)) := by
  intro n
  induction n using Nat.strong_induction_on with
  | _ n IH =>
  refine ⟨?_, ?_, ?_, ?_⟩
  · -- checkPathF
    intro g s h
    obtain _ | m := n
    · omega
    show checkLoopF m g.icase g s = some (checkPath g s)
    rw [(IH m (by omega)).2.1 g.icase g s (by omega)]
    exact rfl
  · -- checkLoopF
    intro ic cur s h
    obtain _ | m := n
    · omega
    cases s with
    | nil => rfl
    | cons ch rest =>
      simp only [List.length_cons] at h
      have hRHS : checkLoop ic cur (ch :: rest)
          = (checkLoopF ((4 * rest.length + 6) + 1) ic cur (ch :: rest)).getD false := by
        simp only [checkLoop, List.length_cons]
        rw [show 4 * (rest.length + 1) + 3 = (4 * rest.length + 6) + 1 by omega]
      rw [hRHS]
      simp only [checkLoopF]
      have hglob : ∀ k, 4 * rest.length + 6 ≤ k → k < m + 1 →
          (if cur.hasGlobChild then
             match lookupA cur.subtrees globChar with
             | some v => globConsumeF k v (ch :: rest)
             | none => some false
           else some false)
          = some (if cur.hasGlobChild then
             match lookupA cur.subtrees globChar with
             | some v => globConsume v (ch :: rest)
             | none => false
           else false) := by
        intro k hk1 hk2
        cases hgc : cur.hasGlobChild
        · simp
        · cases hlk : lookupA cur.subtrees globChar with
          | none => simp
          | some v =>
            simp only
            exact (IH k hk2).2.2.1 v (ch :: rest)
              (by simp only [List.length_cons]; omega)
      rw [hglob m (by omega) (by omega),
        hglob (4 * rest.length + 6) (by omega) (by omega)]
      cases hb : (if cur.hasGlobChild then
             match lookupA cur.subtrees globChar with
             | some v => globConsume v (ch :: rest)
             | none => false
           else false)
      · cases hos : cur.oneShot with
        | some os =>
          by_cases h1 : os.nodeChar = globChar
          · simp [h1]
          · simp only [if_neg h1]
            by_cases h2 : os.nodeChar = foldChar ic ch
            · simp only [if_pos h2]
              rw [(IH m (by omega)).2.1 ic os rest (by omega),
                (IH (4 * rest.length + 6) (by omega)).2.1 ic os rest (by omega)]
              rfl
            · simp [h2]
        | none =>
          cases hlk2 : lookupA cur.subtrees (foldChar ic ch) with
          | none => rfl
          | some v =>
            simp only
            rw [(IH m (by omega)).2.1 ic v rest (by omega),
              (IH (4 * rest.length + 6) (by omega)).2.1 ic v rest (by omega)]
            rfl
      · rfl
  · -- globConsumeF
    intro g s h
    obtain _ | m := n
    · omega
    show (if g.canMatch then some true else globLoopF m g g.oneShot.isSome s)
        = some (globConsume g s)
    have hRHS : globConsume g s
        = (globConsumeF ((4 * s.length + 1) + 1) g s).getD false := rfl
    rw [hRHS]
    show _ = some ((if g.canMatch then some true
        else globLoopF (4 * s.length + 1) g g.oneShot.isSome s).getD false)
    cases hcm : g.canMatch
    · simp only [hcm, Bool.false_eq_true, if_false]
      rw [(IH m (by omega)).2.2.2 g g.oneShot.isSome s (by omega),
        (IH (4 * s.length + 1) (by omega)).2.2.2 g g.oneShot.isSome s (by omega)]
      rfl
    · simp [hcm]
  · -- globLoopF
    intro g st s h
    obtain _ | m := n
    · omega
    cases s with
    | nil => rfl
    | cons ch rest =>
      simp only [List.length_cons] at h
      have hRHS : globLoop g st (ch :: rest)
          = (globLoopF ((4 * rest.length + 4) + 1) g st (ch :: rest)).getD false := by
        simp only [globLoop, List.length_cons]
        rw [show 4 * (rest.length + 1) + 1 = (4 * rest.length + 4) + 1 by omega]
      rw [hRHS]
      simp only [globLoopF]
      cases hskip : (st && (match g.oneShot with
                | some os => decide (foldChar g.icase ch ≠ os.nodeChar)
                | none => false))
      · simp only [hskip, Bool.false_eq_true, if_false]
        have hhit : ∀ k, 4 * rest.length + 4 ≤ k → k < m + 1 →
            (match lookupA g.subtrees (foldChar g.icase ch) with
             | some v => checkPathF k v rest
             | none => some false)
            = some (match lookupA g.subtrees (foldChar g.icase ch) with
             | some v => checkPath v rest
             | none => false) := by
          intro k hk1 hk2
          cases hlk : lookupA g.subtrees (foldChar g.icase ch) with
          | none => simp
          | some v =>
            simp only
            exact (IH k hk2).1 v rest (by omega)
        rw [hhit m (by omega) (by omega),
          hhit (4 * rest.length + 4) (by omega) (by omega)]
        cases hb : (match lookupA g.subtrees (foldChar g.icase ch) with
             | some v => checkPath v rest
             | none => false)
        · cases rest with
          | nil => rfl
          | cons c2 r2 =>
            simp only [List.length_cons] at h
            rw [(IH m (by omega)).2.2.2 g g.oneShot.isSome (c2 :: r2)
                (by simp only [List.length_cons]; omega),
              (IH (4 * (c2 :: r2).length + 4) (by simp only [List.length_cons]; omega)).2.2.2
                g g.oneShot.isSome (c2 :: r2)
                (by simp only [List.length_cons]; omega)]
            rfl
        · rfl
      · simp only [hskip, if_true]
        rw [(IH m (by omega)).2.2.2 g st rest (by omega),
          (IH (4 * rest.length + 4) (by omega)).2.2.2 g st rest (by omega)]
        rfl

theorem checkPath_eq (g : GPN) (s : List Nat) : checkPath g s = checkLoop g.icase g s := rfl

theorem checkLoop_nil (ic : Bool) (cur : GPN) :
    checkLoop ic cur [] = (cur.canMatch || cur.isGlob) := rfl

theorem globConsume_eq (g : GPN) (s : List Nat) :
    globConsume g s = if g.canMatch then true else globLoop g g.oneShot.isSome s := by
  have h3 := (canonAux ((4 * s.length + 1) + 1)).2.2.1 g s (by omega)
  have hL : globConsume g s = (globConsumeF ((4 * s.length + 1) + 1) g s).getD false := by
    rw [h3]
    rfl
  rw [hL]
  simp only [globConsumeF]
  cases hcm : g.canMatch
  · simp only [hcm, Bool.false_eq_true, if_false]
    rw [(canonAux (4 * s.length + 1)).2.2.2 g g.oneShot.isSome s (by omega)]
    rfl
  · simp [hcm]

theorem globLoop_nil (g : GPN) (st : Bool) : globLoop g st [] = false := rfl

theorem checkLoop_cons (ic : Bool) (cur : GPN) (ch : Nat) (rest : List Nat) :
    checkLoop ic cur (ch :: rest) =
      (if (if cur.hasGlobChild then
             match lookupA cur.subtrees globChar with
             | some v => globConsume v (ch :: rest)
             | none => false
           else false) = true then true
       else
         match cur.oneShot with
         | some os =>
           if os.nodeChar = globChar then false
           else if os.nodeChar = foldChar ic ch then checkLoop ic os rest
           else false
         | none =>
           match lookupA cur.subtrees (foldChar ic ch) with
           | some v => checkLoop ic v rest
           | none => false) := by
  have c2 := (canonAux ((4 * rest.length + 6) + 1)).2.1 ic cur (ch :: rest)
    (by simp only [List.length_cons]; omega)
  have hL : checkLoop ic cur (ch :: rest)
      = (checkLoopF ((4 * rest.length + 6) + 1) ic cur (ch :: rest)).getD false := by
    rw [c2]
    rfl
  rw [hL]
  simp only [checkLoopF]
  have hglob :
      (if cur.hasGlobChild then
         match lookupA cur.subtrees globChar with
         | some v => globConsumeF (4 * rest.length + 6) v (ch :: rest)
         | none => some false
       else some false)
      = some (if cur.hasGlobChild then
         match lookupA cur.subtrees globChar with
         | some v => globConsume v (ch :: rest)
         | none => false
       else false) := by
    cases hgc : cur.hasGlobChild
    · simp
    · cases hlk : lookupA cur.subtrees globChar with
      | none => simp
      | some v =>
        simp only
        exact (canonAux (4 * rest.length + 6)).2.2.1 v (ch :: rest)
          (by simp only [List.length_cons]; omega)
  rw [hglob]
  cases hb : (if cur.hasGlobChild then
         match lookupA cur.subtrees globChar with
         | some v => globConsume v (ch :: rest)
         | none => false
       else false)
  · cases hos : cur.oneShot with
    | some os =>
      by_cases h1 : os.nodeChar = globChar
      · simp [h1]
      · simp only [if_neg h1]
        by_cases h2 : os.nodeChar = foldChar ic ch
        · simp only [if_pos h2]
          rw [(canonAux (4 * rest.length + 6)).2.1 ic os rest (by omega)]
          rfl
        · simp [h2]
    | none =>
      cases hlk2 : lookupA cur.subtrees (foldChar ic ch) with
      | none => rfl
      | some v =>
        simp only
        rw [(canonAux (4 * rest.length + 6)).2.1 ic v rest (by omega)]
        rfl
  · rfl

theorem globLoop_cons (g : GPN) (st : Bool) (ch : Nat) (rest : List Nat) :
    globLoop g st (ch :: rest) =
      (if (st && (match g.oneShot with
                  | some os => decide (foldChar g.icase ch ≠ os.nodeChar)
                  | none => false)) = true then
         globLoop g st rest
       else if (match lookupA g.subtrees (foldChar g.icase ch) with
                | some v => checkPath v rest
                | none => false) = true then true
       else
         match rest with
         | [] => g.canMatch
         | _ :: _ => globLoop g g.oneShot.isSome rest) := by
  have c4 := (canonAux ((4 * rest.length + 4) + 1)).2.2.2 g st (ch :: rest)
    (by simp only [List.length_cons]; omega)
  have hL : globLoop g st (ch :: rest)
      = (globLoopF ((4 * rest.length + 4) + 1) g st (ch :: rest)).getD false := by
    rw [c4]
    rfl
  rw [hL]
  simp only [globLoopF]
  cases hskip : (st && (match g.oneShot with
            | some os => decide (foldChar g.icase ch ≠ os.nodeChar)
            | none => false))
  · simp only [hskip, Bool.false_eq_true, if_false]
    have hhit :
        (match lookupA g.subtrees (foldChar g.icase ch) with
         | some v => checkPathF (4 * rest.length + 4) v rest
         | none => some false)
        = some (match lookupA g.subtrees (foldChar g.icase ch) with
         | some v => checkPath v rest
         | none => false) := by
      cases hlk : lookupA g.subtrees (foldChar g.icase ch) with
      | none => simp
      | some v =>
        simp only
        exact (canonAux (4 * rest.length + 4)).1 v rest (by omega)
    rw [hhit]
    cases hb : (match lookupA g.subtrees (foldChar g.icase ch) with
         | some v => checkPath v rest
         | none => false)
    · cases rest with
      | nil => rfl
      | cons c2 r2 =>
        simp only
        rw [(canonAux (4 * (c2 :: r2).length + 4)).2.2.2 g g.oneShot.isSome (c2 :: r2)
          (by omega)]
        rfl
    · rfl
  · simp only [hskip, if_true]
    rw [(canonAux (4 * rest.length + 4)).2.2.2 g st rest (by omega)]
    rfl

@[simp] theorem GPN.subtrees_mk (su os ig cm hg nc ic nil) :
    (GPN.mk su os ig cm hg nc ic nil).subtrees = su := rfl

@[simp] theorem GPN.oneShot_mk (su os ig cm hg nc ic nil) :
    (GPN.mk su os ig cm hg nc ic nil).oneShot = os := rfl

@[simp] theorem GPN.isGlob_mk (su os ig cm hg nc ic nil) :
    (GPN.mk su os ig cm hg nc ic nil).isGlob = ig := rfl

@[simp] theorem GPN.canMatch_mk (su os ig cm hg nc ic nil) :
    (GPN.mk su os ig cm hg nc ic nil).canMatch = cm := rfl

@[simp] theorem GPN.hasGlobChild_mk (su os ig cm hg nc ic nil) :
    (GPN.mk su os ig cm hg nc ic nil).hasGlobChild = hg := rfl

@[simp] theorem GPN.nodeChar_mk (su os ig cm hg nc ic nil) :
    (GPN.mk su os ig cm hg nc ic nil).nodeChar = nc := rfl

@[simp] theorem GPN.icase_mk (su os ig cm hg nc ic nil) :
    (GPN.mk su os ig cm hg nc ic nil).icase = ic := rfl

@[simp] theorem GPN.subtMapNil_mk (su os ig cm hg nc ic nil) :
    (GPN.mk su os ig cm hg nc ic nil).subtMapNil = nil := rfl

@[simp] theorem GPN.withNodeChar_subtrees (t : GPN) (nc : Nat) :
    (t.withNodeChar nc).subtrees = t.subtrees := by cases t; rfl

@[simp] theorem GPN.withNodeChar_oneShot (t : GPN) (nc : Nat) :
    (t.withNodeChar nc).oneShot = t.oneShot := by cases t; rfl

@[simp] theorem GPN.withNodeChar_isGlob (t : GPN) (nc : Nat) :
    (t.withNodeChar nc).isGlob = t.isGlob := by cases t; rfl

@[simp] theorem GPN.withNodeChar_canMatch (t : GPN) (nc : Nat) :
    (t.withNodeChar nc).canMatch = t.canMatch := by cases t; rfl

@[simp] theorem GPN.withNodeChar_hasGlobChild (t : GPN) (nc : Nat) :
    (t.withNodeChar nc).hasGlobChild = t.hasGlobChild := by cases t; rfl

@[simp] theorem GPN.withNodeChar_nodeChar (t : GPN) (nc : Nat) :
    (t.withNodeChar nc).nodeChar = nc := by cases t; rfl

@[simp] theorem GPN.withNodeChar_icase (t : GPN) (nc : Nat) :
    (t.withNodeChar nc).icase = t.icase := by cases t; rfl

@[simp] theorem GPN.withIsGlob_subtrees (t : GPN) :
    t.withIsGlob.subtrees = t.subtrees := by cases t; rfl

@[simp] theorem GPN.withIsGlob_oneShot (t : GPN) :
    t.withIsGlob.oneShot = t.oneShot := by cases t; rfl

@[simp] theorem GPN.withIsGlob_isGlob (t : GPN) :
    t.withIsGlob.isGlob = true := by cases t; rfl

@[simp] theorem GPN.withIsGlob_canMatch (t : GPN) :
    t.withIsGlob.canMatch = t.canMatch := by cases t; rfl

@[simp] theorem GPN.withIsGlob_hasGlobChild (t : GPN) :
    t.withIsGlob.hasGlobChild = t.hasGlobChild := by cases t; rfl

@[simp] theorem GPN.withIsGlob_nodeChar (t : GPN) :
    t.withIsGlob.nodeChar = t.nodeChar := by cases t; rfl

@[simp] theorem GPN.withIsGlob_icase (t : GPN) :
    t.withIsGlob.icase = t.icase := by cases t; rfl

@[simp] theorem foldChar_false (ch : Nat) : foldChar false ch = ch := by
  simp [foldChar]

theorem foldChar_idem (ch : Nat) : foldChar true (foldChar true ch) = foldChar true ch := by
  simp only [foldChar]
  split
  · split
    · omega
    · rfl
  · rfl

theorem foldChar_ne_one {ch : Nat} (ic : Bool) (h : ch ≠ 1) : foldChar ic ch ≠ 1 := by
  simp only [foldChar]
  split
  · omega
  · exact h

theorem foldChar_eq_42 (ic : Bool) (ch : Nat) : foldChar ic ch = 42 ↔ ch = 42 := by
  simp only [foldChar]
  split
  · omega
  · exact Iff.rfl

theorem lookupA_mem {l : List (Nat × GPN)} {k : Nat} {c : GPN}
    (h : lookupA l k = some c) : (k, c) ∈ l := by
  induction l with
  | nil => simp [lookupA] at h
  | cons a rest IH =>
    obtain ⟨k', v'⟩ := a
    by_cases e : k' = k
    · subst e
      simp [lookupA] at h
      simp [h]
    · simp only [lookupA, if_neg e] at h
      exact List.mem_cons_of_mem _ (IH h)

theorem updateA_ne_nil (l : List (Nat × GPN)) (k : Nat) (v : GPN) :
    updateA l k v ≠ [] := by
  cases l with
  | nil => simp [updateA]
  | cons a rest =>
    obtain ⟨k', v'⟩ := a
    by_cases e : k' = k <;> simp [updateA, e]

theorem updateA_len_one {l : List (Nat × GPN)} {k : Nat} {v : GPN}
    (h : (updateA l k v).length = 1) : updateA l k v = [(k, v)] := by
  cases l with
  | nil => rfl
  | cons a rest =>
    obtain ⟨k', v'⟩ := a
    by_cases e : k' = k
    · simp only [updateA, if_pos e] at h ⊢
      simp at h
      simp [h]
    · exfalso
      simp only [updateA, if_neg e, List.length_cons] at h
      have hnn := updateA_ne_nil rest k v
      cases e2 : updateA rest k v with
      | nil => exact hnn e2
      | cons x xs => rw [e2] at h; simp at h

theorem lookupA_updateA_self (l : List (Nat × GPN)) (k : Nat) (v : GPN) :
    lookupA (updateA l k v) k = some v := by
  induction l with
  | nil => simp [updateA, lookupA]
  | cons a rest IH =>
    obtain ⟨k', v'⟩ := a
    by_cases e : k' = k
    · simp [updateA, e, lookupA]
    · simp [updateA, e, lookupA, IH]

theorem lookupA_updateA_ne (l : List (Nat × GPN)) (k : Nat) (v : GPN)
    {k' : Nat} (h : k' ≠ k) : lookupA (updateA l k v) k' = lookupA l k' := by
  induction l with
  | nil => simp [updateA, lookupA, Ne.symm h]
  | cons a rest IH =>
    obtain ⟨ka, va⟩ := a
    by_cases e : ka = k
    · subst e
      simp [updateA, lookupA, Ne.symm h]
    · simp only [updateA, if_neg e, lookupA]
      by_cases e2 : ka = k' <;> simp [e2, IH]

theorem mem_updateA {l : List (Nat × GPN)} {k : Nat} {v : GPN} {kc : Nat × GPN}
    (h : kc ∈ updateA l k v) : kc ∈ l ∨ kc = (k, v) := by
  induction l with
  | nil => simp [updateA] at h; simp [h]
  | cons a rest IH =>
    obtain ⟨ka, va⟩ := a
    by_cases e : ka = k
    · subst e
      simp only [updateA, if_pos rfl] at h
      rcases List.mem_cons.1 h with h1 | h1
      · right; exact h1
      · left; exact List.mem_cons_of_mem _ h1
    · simp only [updateA, if_neg e] at h
      rcases List.mem_cons.1 h with h1 | h1
      · left; simp [h1]
      · rcases IH h1 with h2 | h2
        · left; exact List.mem_cons_of_mem _ h2
        · right; exact h2

theorem addPathLoop_icase (ic : Bool) (t : GPN) (s : List Nat) :
    (addPathLoop ic t s).icase = t.icase := by
  cases s with
  | nil => cases t; rfl
  | cons ch rest => simp [addPathLoop]

theorem addPathLoop_nodeChar (ic : Bool) (t : GPN) (s : List Nat) :
    (addPathLoop ic t s).nodeChar = t.nodeChar := by
  cases s with
  | nil => cases t; rfl
  | cons ch rest => simp [addPathLoop]

theorem addPathLoop_isGlob (ic : Bool) (t : GPN) (s : List Nat) :
    (addPathLoop ic t s).isGlob = t.isGlob := by
  cases s with
  | nil => cases t; rfl
  | cons ch rest => simp [addPathLoop]

theorem addPathLoop_subtMapNil (ic : Bool) (t : GPN) (s : List Nat) :
    (addPathLoop ic t s).subtMapNil = t.subtMapNil := by
  cases s with
  | nil => cases t; rfl
  | cons ch rest => simp [addPathLoop]

theorem addPathLoop_canMatch_mono (ic : Bool) (t : GPN) (s : List Nat)
    (h : t.canMatch = true) : (addPathLoop ic t s).canMatch = true := by
  cases s with
  | nil => cases t; simp_all [addPathLoop]
  | cons ch rest => simp [addPathLoop, h]

theorem addPathLoop_canMatch_nil (ic : Bool) (t : GPN) :
    (addPathLoop ic t []).canMatch = true := by
  cases t; rfl

theorem buildTrie_icase (ic : Bool) (ps : List (List Nat)) :
    (buildTrie ic ps).icase = ic := by
  suffices h : ∀ acc : GPN,
      (ps.foldl (fun t p => addPathLoop t.icase t p) acc).icase = acc.icase by
    exact h (newGlobPathNode ic)
  induction ps with
  | nil => intro acc; rfl
  | cons p rest IH =>
    intro acc
    simp only [List.foldl_cons]
    rw [IH, addPathLoop_icase]

theorem everyNode_self {P : GPN → Prop} {t : GPN} (h : EveryNode P t) : P t := by
  cases h with
  | mk _ hP _ => exact hP

theorem everyNode_child {P : GPN → Prop} {t : GPN} {k : Nat} {c : GPN}
    (h : EveryNode P t) (hm : (k, c) ∈ t.subtrees) : EveryNode P c := by
  cases h with
  | mk _ _ hc => exact hc k c hm

theorem oneShotOK_newGPN (ic : Bool) : oneShotOK (newGlobPathNode ic) := rfl

theorem everyNode_newGPN {P : GPN → Prop} (ic : Bool) (hP : P (newGlobPathNode ic)) :
    EveryNode P (newGlobPathNode ic) := by
  refine EveryNode.mk _ hP ?_
  intro k c hm
  simp [newGlobPathNode] at hm

theorem everyNode_withNodeChar {P : GPN → Prop} {t : GPN} {nc : Nat}
    (h : EveryNode P t) (himp : P t → P (t.withNodeChar nc)) :
    EveryNode P (t.withNodeChar nc) := by
  cases h with
  | mk _ hP hc =>
    refine EveryNode.mk _ (himp hP) ?_
    intro k c hm
    rw [GPN.withNodeChar_subtrees] at hm
    exact hc k c hm

theorem everyNode_withIsGlob {P : GPN → Prop} {t : GPN}
    (h : EveryNode P t) (himp : P t → P t.withIsGlob) :
    EveryNode P t.withIsGlob := by
  cases h with
  | mk _ hP hc =>
    refine EveryNode.mk _ (himp hP) ?_
    intro k c hm
    rw [GPN.withIsGlob_subtrees] at hm
    exact hc k c hm

theorem oneShotOK_withNodeChar {t : GPN} {nc : Nat} (h : oneShotOK t) :
    oneShotOK (t.withNodeChar nc) := by
  cases t
  exact h

theorem oneShotOK_withIsGlob {t : GPN} (h : oneShotOK t) :
    oneShotOK t.withIsGlob := by
  cases t
  exact h

theorem oneShotOK_mk_update (l : List (Nat × GPN)) (k : Nat) (v : GPN)
    (ig cm hg : Bool) (nc : Nat) (ic nil : Bool) :
    oneShotOK (GPN.mk (updateA l k v)
      (if (updateA l k v).length = 1 then some v else none) ig cm hg nc ic nil) := by
  simp only [oneShotOK, GPN.subtrees_mk, GPN.oneShot_mk]
  cases e : updateA l k v with
  | nil => exact absurd e (updateA_ne_nil l k v)
  | cons a l2 =>
    cases l2 with
    | nil =>
      have h1 : updateA l k v = [(k, v)] := updateA_len_one (by rw [e]; rfl)
      rw [e] at h1
      obtain rfl : a = (k, v) := by simpa using h1
      simp [e]
    | cons b l3 =>
      simp

theorem addPathLoop_cons (ic : Bool) (t : GPN) (ch : Nat) (rest : List Nat) :
    addPathLoop ic t (ch :: rest) =
      (let part := foldChar ic ch
       let c := if part = 42 then globChar else part
       let child3 := addPathLoop ic (stepChild ic t part) rest
       let subt := updateA t.subtrees c child3
       GPN.mk subt (if subt.length = 1 then some child3 else none)
         t.isGlob t.canMatch
         (if part = 42 then true else t.hasGlobChild)
         t.nodeChar t.icase t.subtMapNil) := by
  simp only [addPathLoop, stepChild]

theorem everyNode_oneShotOK_child2 (ic : Bool) (t : GPN) (part : Nat)
    (h : EveryNode oneShotOK t) : EveryNode oneShotOK (stepChild ic t part) := by
  simp only [stepChild]
  cases hlk : lookupA t.subtrees (if part = 42 then globChar else part) with
  | some v =>
    have hv := everyNode_child h (lookupA_mem hlk)
    by_cases e : part = 42
    · simp only [if_pos e]
      exact everyNode_withIsGlob (everyNode_withNodeChar hv oneShotOK_withNodeChar)
        oneShotOK_withIsGlob
    · simp only [if_neg e]
      exact everyNode_withNodeChar hv oneShotOK_withNodeChar
  | none =>
    by_cases e : part = 42
    · simp only [if_pos e]
      exact everyNode_withIsGlob
        (everyNode_withNodeChar (everyNode_newGPN ic (oneShotOK_newGPN ic))
          oneShotOK_withNodeChar) oneShotOK_withIsGlob
    · simp only [if_neg e]
      exact everyNode_withNodeChar (everyNode_newGPN ic (oneShotOK_newGPN ic))
        oneShotOK_withNodeChar

theorem everyNode_oneShotOK_addPathLoop (ic : Bool) (p : List Nat) :
    ∀ t : GPN, EveryNode oneShotOK t → EveryNode oneShotOK (addPathLoop ic t p) := by
  induction p with
  | nil =>
    intro t h
    obtain ⟨su, os, ig, cm, hg, nc, tic, nil⟩ := t
    cases h with
    | mk _ hP hc => exact EveryNode.mk _ hP hc
  | cons ch rest IH =>
    intro t h
    rw [addPathLoop_cons]
    refine EveryNode.mk _ ?_ ?_
    · exact oneShotOK_mk_update _ _ _ _ _ _ _ _ _
    · intro k c hm
      simp only [GPN.subtrees_mk] at hm
      rcases mem_updateA hm with hold | hnew
      · exact everyNode_child h hold
      · obtain ⟨rfl, rfl⟩ : k = _ ∧ c = _ := by
          simpa [Prod.ext_iff] using hnew
        exact IH _ (everyNode_oneShotOK_child2 ic t (foldChar ic ch) h)

theorem everyNode_oneShotOK_buildTrie (ic : Bool) (ps : List (List Nat)) :
    EveryNode oneShotOK (buildTrie ic ps) := by
  suffices h : ∀ acc : GPN, EveryNode oneShotOK acc →
      EveryNode oneShotOK (ps.foldl (fun t p => addPathLoop t.icase t p) acc) by
    exact h (newGlobPathNode ic) (everyNode_newGPN ic (oneShotOK_newGPN ic))
  induction ps with
  | nil => intro acc hacc; exact hacc
  | cons p rest IHp =>
    intro acc hacc
    simp only [List.foldl_cons]
    exact IHp _ (everyNode_oneShotOK_addPathLoop acc.icase p acc hacc)

theorem everyNode_mono {P Q : GPN → Prop} (himp : ∀ x, P x → Q x) {t : GPN}
    (h : EveryNode P t) : EveryNode Q t := by
  induction h with
  | mk t hP hc IH =>
    exact EveryNode.mk _ (himp t hP) IH

theorem everyNode_and {P Q : GPN → Prop} {t : GPN}
    (hp : EveryNode P t) (hq : EveryNode Q t) :
    EveryNode (fun x => P x ∧ Q x) t := by
  revert hq
  induction hp with
  | mk t hP hc IH =>
    intro hq
    cases hq with
    | mk _ hQ hq =>
      refine EveryNode.mk _ ⟨hP, hQ⟩ ?_
      intro k c hm
      exact IH k c hm (hq k c hm)

theorem stepChild_nodeChar (ic : Bool) (t : GPN) (part : Nat) :
    (stepChild ic t part).nodeChar = part := by
  simp only [stepChild]
  by_cases e : part = 42 <;> simp [e]

theorem flagsLitOK_newGPN (ic : Bool) : flagsLitOK (newGlobPathNode ic) := by
  refine ⟨rfl, rfl, ?_⟩
  intro kc hm
  simp [newGlobPathNode] at hm

theorem flagsLitOK_withNodeChar {t : GPN} {nc : Nat} (h : flagsLitOK t) :
    flagsLitOK (t.withNodeChar nc) := by
  cases t
  exact h

theorem everyNode_flagsLitOK_stepChild (t : GPN) (part : Nat) (hpart : part ≠ 42)
    (h : EveryNode flagsLitOK t) : EveryNode flagsLitOK (stepChild false t part) := by
  simp only [stepChild, if_neg hpart]
  cases hlk : lookupA t.subtrees part with
  | some v =>
    exact everyNode_withNodeChar (everyNode_child h (lookupA_mem hlk))
      flagsLitOK_withNodeChar
  | none =>
    exact everyNode_withNodeChar (everyNode_newGPN false (flagsLitOK_newGPN false))
      flagsLitOK_withNodeChar

theorem everyNode_flagsLitOK_addPathLoop (p : List Nat)
    (hp : ∀ ch ∈ p, ch ≠ 42 ∧ ch ≠ 1) :
    ∀ t : GPN, EveryNode flagsLitOK t → EveryNode flagsLitOK (addPathLoop false t p) := by
  induction p with
  | nil =>
    intro t h
    obtain ⟨su, os, ig, cm, hg, nc, tic, nil⟩ := t
    cases h with
    | mk _ hP hc => exact EveryNode.mk _ hP hc
  | cons ch rest IH =>
    intro t h
    have hch := hp ch (List.mem_cons_self ch rest)
    have hrest : ∀ c ∈ rest, c ≠ 42 ∧ c ≠ 1 := fun c hc =>
      hp c (List.mem_cons_of_mem ch hc)
    rw [addPathLoop_cons]
    simp only [foldChar_false, if_neg hch.1]
    have hf := everyNode_self h
    refine EveryNode.mk _ ?_ ?_
    · refine ⟨hf.1, hf.2.1, ?_⟩
      intro kc hm
      simp only [GPN.subtrees_mk] at hm
      rcases mem_updateA hm with hold | hnew
      · exact hf.2.2 kc hold
      · subst hnew
        refine ⟨hch.2, ?_⟩
        show (addPathLoop false (stepChild false t ch) rest).nodeChar = ch
        rw [addPathLoop_nodeChar, stepChild_nodeChar]
    · intro k c hm
      simp only [GPN.subtrees_mk] at hm
      rcases mem_updateA hm with hold | hnew
      · exact everyNode_child h hold
      · have hc : c = addPathLoop false (stepChild false t ch) rest :=
          congrArg Prod.snd hnew
        subst hc
        exact IH hrest _ (everyNode_flagsLitOK_stepChild t ch hch.1 h)

theorem walkLit_newGPN (ic : Bool) (s : List Nat) :
    walkLit (newGlobPathNode ic) s = false := by
  cases s with
  | nil => rfl
  | cons ch rest => rfl

theorem walkLit_withNodeChar (t : GPN) (nc : Nat) (s : List Nat) :
    walkLit (t.withNodeChar nc) s = walkLit t s := by
  cases s with
  | nil => simp [walkLit]
  | cons ch rest =>
    simp only [walkLit, GPN.withNodeChar_subtrees]

theorem walkLit_insert (p : List Nat) (hp : ∀ ch ∈ p, ch ≠ 42) :
    ∀ t s, (walkLit (addPathLoop false t p) s = true ↔ (s = p ∨ walkLit t s = true)) := by
  induction p with
  | nil =>
    intro t s
    obtain ⟨su, os, ig, cm, hg, nc, tic, nil⟩ := t
    cases s with
    | nil => simp [walkLit, addPathLoop]
    | cons ch rest =>
      show walkLit (GPN.mk su os ig true hg nc tic nil) (ch :: rest) = true ↔ _
      simp only [walkLit]
      simp
  | cons c p' IH =>
    intro t s
    have hc42 := hp c (List.mem_cons_self c p')
    have hp' : ∀ ch ∈ p', ch ≠ 42 := fun ch hm => hp ch (List.mem_cons_of_mem c hm)
    rw [addPathLoop_cons]
    simp only [foldChar_false, if_neg hc42]
    cases s with
    | nil =>
      simp only [walkLit, GPN.canMatch_mk]
      simp [walkLit]
    | cons ch r =>
      simp only [walkLit, GPN.subtrees_mk]
      by_cases e : ch = c
      · subst e
        rw [lookupA_updateA_self]
        show walkLit (addPathLoop false (stepChild false t ch) p') r = true ↔ _
        rw [IH hp' (stepChild false t ch) r]
        have hstep : walkLit (stepChild false t ch) r = walkLit
            (match lookupA t.subtrees ch with
             | some v => v
             | none => newGlobPathNode false) r := by
          simp only [stepChild, if_neg hc42]
          exact walkLit_withNodeChar _ _ _
        rw [hstep]
        cases hlk : lookupA t.subtrees ch with
        | none =>
          simp [walkLit_newGPN, walkLit, hlk]
        | some v =>
          simp [walkLit, hlk]
      · rw [lookupA_updateA_ne _ _ _ e]
        have : ¬ (ch :: r = c :: p') := by simp [e]
        cases hlk : lookupA t.subtrees ch with
        | none => simp [walkLit, hlk, this]
        | some v => simp [walkLit, hlk, this]

theorem walkLit_build (P : List (List Nat)) :
    ∀ acc : GPN, acc.icase = false →
      (∀ p ∈ P, ∀ ch ∈ p, ch ≠ 42) →
      ∀ s, (walkLit (P.foldl (fun t p => addPathLoop t.icase t p) acc) s = true ↔
        (s ∈ P ∨ walkLit acc s = true)) := by
  induction P with
  | nil =>
    intro acc hic hP s
    simp
  | cons p P' IH =>
    intro acc hic hP s
    simp only [List.foldl_cons]
    rw [IH (addPathLoop acc.icase acc p)
      (by rw [addPathLoop_icase]; exact hic)
      (fun q hq => hP q (List.mem_cons_of_mem p hq)) s]
    rw [hic]
    rw [walkLit_insert p (hP p (List.mem_cons_self p P')) acc s]
    constructor
    · rintro (h1 | h2 | h3)
      · exact Or.inl (List.mem_cons_of_mem p h1)
      · exact Or.inl (by simp [h2])
      · exact Or.inr h3
    · rintro (h1 | h2)
      · rcases List.mem_cons.1 h1 with h3 | h3
        · exact Or.inr (Or.inl h3)
        · exact Or.inl h3
      · exact Or.inr (Or.inr h2)

theorem checkLoop_eq_walkLit (s : List Nat) :
    ∀ t : GPN, EveryNode (fun x => flagsLitOK x ∧ oneShotOK x) t →
      checkLoop false t s = walkLit t s := by
  induction s with
  | nil =>
    intro t h
    rw [checkLoop_nil]
    have hig := (everyNode_self h).1.1
    cases s2 : t.subtrees
    all_goals simp [walkLit, hig]
  | cons ch rest IH =>
    intro t h
    have hf := (everyNode_self h).1
    have ho := (everyNode_self h).2
    rw [checkLoop_cons]
    simp only [hf.2.1, Bool.false_eq_true, if_false, foldChar_false]
    cases e : t.subtrees with
    | nil =>
      simp only [oneShotOK, e] at ho
      simp only [ho]
      simp [walkLit, e, lookupA]
    | cons kc l2 =>
      cases l2 with
      | nil =>
        simp only [oneShotOK, e] at ho
        simp only [ho]
        obtain ⟨k0, c0⟩ := kc
        have hk := hf.2.2 (k0, c0) (by rw [e]; exact List.mem_singleton_self _)
        have hnc : c0.nodeChar = k0 := hk.2
        rw [hnc, if_neg hk.1]
        by_cases e2 : k0 = ch
        · rw [if_pos e2]
          rw [IH c0 (everyNode_child h (by rw [e, e2]; exact List.mem_singleton_self _))]
          simp [walkLit, e, lookupA, e2]
        · rw [if_neg e2]
          simp [walkLit, e, lookupA, e2]
      | cons kc2 l3 =>
        simp only [oneShotOK, e] at ho
        simp only [ho]
        cases hlk : lookupA (kc :: kc2 :: l3) ch with
        | some v =>
          show checkLoop false v rest = walkLit t (ch :: rest)
          rw [IH v (everyNode_child h (by rw [e]; exact lookupA_mem hlk))]
          simp [walkLit, e, hlk]
        | none => simp [walkLit, e, hlk]

theorem foldl_addPath_icase (ps : List (List Nat)) : ∀ acc : GPN,
    (ps.foldl (fun t p => addPathLoop t.icase t p) acc).icase = acc.icase := by
  induction ps with
  | nil => intro acc; rfl
  | cons p rest IH =>
    intro acc
    simp only [List.foldl_cons]
    rw [IH, addPathLoop_icase]

theorem pathOK_withNodeChar (t : GPN) (nc : Nat) (p : List Nat) :
    pathOK (t.withNodeChar nc) p ↔ pathOK t p := by
  cases p with
  | nil => simp [pathOK]
  | cons ch rest => simp [pathOK]

theorem pathOK_addPathLoop_self (p : List Nat) (hp : ∀ ch ∈ p, ch ≠ 42) :
    ∀ t : GPN, pathOK (addPathLoop false t p) p := by
  induction p with
  | nil =>
    intro t
    obtain ⟨su, os, ig, cm, hg, nc, tic, nil⟩ := t
    exact rfl
  | cons ch p' IH =>
    intro t
    have hch := hp ch (List.mem_cons_self ch p')
    have hp' : ∀ c ∈ p', c ≠ 42 := fun c hc => hp c (List.mem_cons_of_mem ch hc)
    rw [addPathLoop_cons]
    simp only [foldChar_false, if_neg hch]
    refine ⟨addPathLoop false (stepChild false t ch) p', ?_, ?_, ?_⟩
    · exact lookupA_updateA_self _ _ _
    · rw [addPathLoop_nodeChar, stepChild_nodeChar]
    · exact IH hp' _

theorem pathOK_preserved : ∀ (p : List Nat), (∀ ch ∈ p, ch ≠ 1) →
    ∀ (q : List Nat) (t : GPN), pathOK t p → pathOK (addPathLoop false t q) p := by
  intro p
  induction p with
  | nil =>
    intro _ q t h
    exact addPathLoop_canMatch_mono false t q h
  | cons ch p' IH =>
    intro hp q t h
    have hch1 : ch ≠ 1 := hp ch (List.mem_cons_self ch p')
    have hp' : ∀ c ∈ p', c ≠ 1 := fun c hc => hp c (List.mem_cons_of_mem ch hc)
    obtain ⟨c, hlk, hnc, hrest⟩ := h
    cases q with
    | nil =>
      obtain ⟨su, os, ig, cm, hg, nc2, tic, nil⟩ := t
      exact ⟨c, hlk, hnc, hrest⟩
    | cons qc qr =>
      rw [addPathLoop_cons]
      simp only [foldChar_false]
      by_cases e2 : qc = 42
      · simp only [if_pos e2]
        refine ⟨c, ?_, hnc, hrest⟩
        show lookupA (updateA t.subtrees globChar _) ch = some c
        rw [lookupA_updateA_ne _ _ _ (show ch ≠ globChar from hch1)]
        exact hlk
      · simp only [if_neg e2]
        by_cases e3 : qc = ch
        · subst e3
          refine ⟨addPathLoop false (stepChild false t qc) qr, ?_, ?_, ?_⟩
          · exact lookupA_updateA_self _ _ _
          · rw [addPathLoop_nodeChar, stepChild_nodeChar]
          · apply IH hp' qr
            have hstep : stepChild false t qc = c.withNodeChar qc := by
              simp only [stepChild, if_neg e2, foldChar_false]
              rw [hlk]
            rw [hstep, pathOK_withNodeChar]
            exact hrest
        · refine ⟨c, ?_, hnc, hrest⟩
          show lookupA (updateA t.subtrees qc _) ch = some c
          rw [lookupA_updateA_ne _ _ _ (fun hh => e3 hh.symm)]
          exact hlk

theorem pathOK_checkLoop : ∀ (p : List Nat), (∀ ch ∈ p, ch ≠ 1) →
    ∀ t : GPN, EveryNode oneShotOK t → pathOK t p → checkLoop false t p = true := by
  intro p
  induction p with
  | nil =>
    intro _ t _ h
    rw [checkLoop_nil, h]
    rfl
  | cons ch p' IH =>
    intro hp t ho hpo
    have hch1 : ch ≠ 1 := hp ch (List.mem_cons_self ch p')
    have hp' : ∀ c ∈ p', c ≠ 1 := fun c hc => hp c (List.mem_cons_of_mem ch hc)
    obtain ⟨c, hlk, hnc, hrest⟩ := hpo
    rw [checkLoop_cons]
    simp only [foldChar_false]
    cases hg : (if t.hasGlobChild then
         match lookupA t.subtrees globChar with
         | some v => globConsume v (ch :: p')
         | none => false
       else false)
    · simp only [hg, Bool.false_eq_true, if_false]
      have hos := everyNode_self ho
      cases e : t.subtrees with
      | nil =>
        rw [e] at hlk
        simp [lookupA] at hlk
      | cons kc l2 =>
        cases l2 with
        | nil =>
          simp only [oneShotOK, e] at hos
          simp only [hos]
          obtain ⟨k0, c0⟩ := kc
          rw [e] at hlk
          have hk0 : k0 = ch ∧ c0 = c := by
            by_cases e2 : k0 = ch
            · simp only [lookupA, if_pos e2, Option.some.injEq] at hlk
              exact ⟨e2, hlk⟩
            · simp [lookupA, e2] at hlk
          rw [hk0.2, hnc]
          rw [if_neg (show ¬ (ch = globChar) from hch1)]
          rw [if_pos rfl]
          exact IH hp' c (everyNode_child ho (by
            rw [e, hk0.1, hk0.2]; exact List.mem_singleton_self _)) hrest
        | cons kc2 l3 =>
          simp only [oneShotOK, e] at hos
          simp only [hos]
          rw [e] at hlk
          rw [hlk]
          exact IH hp' c (everyNode_child ho (by
            rw [e]; exact lookupA_mem hlk)) hrest
    · simp [hg]

theorem pathOK_descend (p : List Nat) : ∀ t : GPN, pathOK t p →
    ∃ n, descend t p = some n ∧ n.canMatch = true := by
  induction p with
  | nil => intro t h; exact ⟨t, rfl, h⟩
  | cons ch p' IH =>
    intro t h
    obtain ⟨c, hlk, _, hrest⟩ := h
    obtain ⟨n, hd, hcm⟩ := IH c hrest
    refine ⟨n, ?_, hcm⟩
    show (match lookupA t.subtrees ch with
      | some v => descend v p'
      | none => none) = some n
    rw [hlk]
    exact hd

theorem pathOK_foldl (p : List Nat) (hp : ∀ ch ∈ p, ch ≠ 1) :
    ∀ (Q : List (List Nat)) (acc : GPN), acc.icase = false → pathOK acc p →
      pathOK (Q.foldl (fun t q => addPathLoop t.icase t q) acc) p := by
  intro Q
  induction Q with
  | nil => intro acc _ h; exact h
  | cons q Q' IH =>
    intro acc hic h
    simp only [List.foldl_cons]
    exact IH _ (by rw [addPathLoop_icase]; exact hic)
      (by rw [hic]; exact pathOK_preserved p hp q acc h)

theorem trailingGlobAux : ∀ (p : List Nat), (∀ ch ∈ p, ch ≠ 42 ∧ ch ≠ 1) →
    ∀ t : GPN, t.subtrees = [] → t.oneShot = none → t.canMatch = false →
      t.isGlob = false → t.hasGlobChild = false → t.icase = false →
    (∀ suffix, suffix ≠ [] →
        checkLoop false (addPathLoop false t (p ++ [42])) (p ++ suffix) = true) ∧
    checkLoop false (addPathLoop false t (p ++ [42])) p = false := by
  intro p
  induction p with
  | nil =>
    intro _ t hsub hos hcm hig hgc hic
    obtain ⟨su, os, ig, cm, hg, nc, tic, nil⟩ := t
    simp only [GPN.subtrees_mk, GPN.oneShot_mk, GPN.canMatch_mk, GPN.isGlob_mk,
      GPN.hasGlobChild_mk, GPN.icase_mk] at hsub hos hcm hig hgc hic
    subst hsub; subst hos; subst hcm; subst hig; subst hgc; subst hic
    constructor
    · intro suffix hsfx
      cases suffix with
      | nil => exact absurd rfl hsfx
      | cons ch rest =>
        rw [show ([] : List Nat) ++ [42] = [42] from rfl,
          show ([] : List Nat) ++ ch :: rest = ch :: rest from rfl]
        rw [addPathLoop_cons]
        simp only [foldChar_false, if_pos rfl, GPN.subtrees_mk]
        rw [checkLoop_cons]
        simp [lookupA, updateA, globConsume_eq, stepChild, newGlobPathNode, globChar,
          addPathLoop_canMatch_nil]
    · rw [show ([] : List Nat) ++ [42] = [42] from rfl]
      rw [checkLoop_nil]
      rw [addPathLoop_cons]
      simp only [foldChar_false, if_pos rfl]
      simp
  | cons ch p' IH =>
    intro hp t hsub hos hcm hig hgc hic
    have hch := hp ch (List.mem_cons_self ch p')
    have hp' : ∀ c ∈ p', c ≠ 42 ∧ c ≠ 1 := fun c hc => hp c (List.mem_cons_of_mem ch hc)
    obtain ⟨su, os, ig, cm, hg, nc, tic, nil⟩ := t
    simp only [GPN.subtrees_mk, GPN.oneShot_mk, GPN.canMatch_mk, GPN.isGlob_mk,
      GPN.hasGlobChild_mk, GPN.icase_mk] at hsub hos hcm hig hgc hic
    subst hsub; subst hos; subst hcm; subst hig; subst hgc; subst hic
    have hIH := IH hp' ((newGlobPathNode false).withNodeChar ch)
      (by simp [newGlobPathNode]) (by simp [newGlobPathNode]) (by simp [newGlobPathNode])
      (by simp [newGlobPathNode]) (by simp [newGlobPathNode]) (by simp [newGlobPathNode])
    have hg1 : ¬ (ch = globChar) := hch.2
    constructor
    · intro suffix hsfx
      rw [show (ch :: p') ++ suffix = ch :: (p' ++ suffix) from rfl,
        show (ch :: p') ++ [42] = ch :: (p' ++ [42]) from rfl]
      rw [addPathLoop_cons]
      simp only [foldChar_false, if_neg hch.1, GPN.subtrees_mk, GPN.isGlob_mk,
        GPN.canMatch_mk, GPN.hasGlobChild_mk, GPN.nodeChar_mk, GPN.icase_mk,
        GPN.subtMapNil_mk]
      rw [checkLoop_cons]
      simp only [GPN.hasGlobChild_mk, Bool.false_eq_true, if_false, GPN.oneShot_mk,
        GPN.subtrees_mk, foldChar_false]
      simp [updateA, lookupA, addPathLoop_nodeChar, stepChild_nodeChar, hg1,
        stepChild, hch.1]
      exact hIH.1 suffix hsfx
    · rw [show (ch :: p') ++ [42] = ch :: (p' ++ [42]) from rfl]
      rw [addPathLoop_cons]
      simp only [foldChar_false, if_neg hch.1, GPN.subtrees_mk, GPN.isGlob_mk,
        GPN.canMatch_mk, GPN.hasGlobChild_mk, GPN.nodeChar_mk, GPN.icase_mk,
        GPN.subtMapNil_mk]
      rw [checkLoop_cons]
      simp only [GPN.hasGlobChild_mk, Bool.false_eq_true, if_false, GPN.oneShot_mk,
        GPN.subtrees_mk, foldChar_false]
      simp [updateA, lookupA, addPathLoop_nodeChar, stepChild_nodeChar, hg1,
        stepChild, hch.1]
      exact hIH.2

theorem caseFold_nil_iff (s : List Nat) : caseFold s = [] ↔ s = [] := by
  cases s <;> simp [caseFold]

theorem addPathLoop_caseFold : ∀ (p q : List Nat), caseFold p = caseFold q →
    ∀ t : GPN, addPathLoop true t p = addPathLoop true t q := by
  intro p
  induction p with
  | nil =>
    intro q h t
    have : q = [] := by
      have := h.symm
      rw [show caseFold [] = [] from rfl] at this
      exact (caseFold_nil_iff q).1 this
    rw [this]
  | cons c p' IH =>
    intro q h t
    cases q with
    | nil => simp [caseFold] at h
    | cons c' q' =>
      simp only [caseFold, List.map_cons, List.cons.injEq] at h
      simp only [addPathLoop_cons]
      rw [show foldChar true c = foldChar true c' from h.1]
      rw [IH q' h.2 (stepChild true t (foldChar true c'))]

theorem buildTrie_caseFold (P P' : List (List Nat))
    (h : List.Forall₂ (fun a b => caseFold a = caseFold b) P P') :
    buildTrie true P = buildTrie true P' := by
  suffices hs : ∀ acc : GPN, acc.icase = true →
      P.foldl (fun t p => addPathLoop t.icase t p) acc
        = P'.foldl (fun t p => addPathLoop t.icase t p) acc by
    exact hs (newGlobPathNode true) rfl
  induction h with
  | nil => intro acc _; rfl
  | cons hpq hrest IH =>
    intro acc hic
    simp only [List.foldl_cons]
    rw [hic]
    rw [addPathLoop_caseFold _ _ hpq acc]
    exact IH _ (by rw [addPathLoop_icase]; exact hic)

theorem icaseIs_newGPN (b : Bool) : icaseIs b (newGlobPathNode b) := rfl

theorem icaseIs_withNodeChar {b : Bool} {t : GPN} {nc : Nat} (h : icaseIs b t) :
    icaseIs b (t.withNodeChar nc) := by
  cases t; exact h

theorem icaseIs_withIsGlob {b : Bool} {t : GPN} (h : icaseIs b t) :
    icaseIs b t.withIsGlob := by
  cases t; exact h

theorem everyNode_icaseIs_stepChild (ic : Bool) (t : GPN) (part : Nat)
    (h : EveryNode (icaseIs ic) t) : EveryNode (icaseIs ic) (stepChild ic t part) := by
  simp only [stepChild]
  cases hlk : lookupA t.subtrees (if part = 42 then globChar else part) with
  | some v =>
    have hv := everyNode_child h (lookupA_mem hlk)
    by_cases e : part = 42
    · simp only [if_pos e]
      exact everyNode_withIsGlob (everyNode_withNodeChar hv icaseIs_withNodeChar)
        icaseIs_withIsGlob
    · simp only [if_neg e]
      exact everyNode_withNodeChar hv icaseIs_withNodeChar
  | none =>
    by_cases e : part = 42
    · simp only [if_pos e]
      exact everyNode_withIsGlob
        (everyNode_withNodeChar (everyNode_newGPN ic (icaseIs_newGPN ic))
          icaseIs_withNodeChar) icaseIs_withIsGlob
    · simp only [if_neg e]
      exact everyNode_withNodeChar (everyNode_newGPN ic (icaseIs_newGPN ic))
        icaseIs_withNodeChar

theorem everyNode_icaseIs_addPathLoop (ic : Bool) (p : List Nat) :
    ∀ t : GPN, EveryNode (icaseIs ic) t →
      EveryNode (icaseIs ic) (addPathLoop ic t p) := by
  induction p with
  | nil =>
    intro t h
    obtain ⟨su, os, ig, cm, hg, nc, tic, nil⟩ := t
    cases h with
    | mk _ hP hc => exact EveryNode.mk _ hP hc
  | cons ch rest IH =>
    intro t h
    rw [addPathLoop_cons]
    refine EveryNode.mk _ ?_ ?_
    · simpa [icaseIs] using everyNode_self h
    intro k c hm
    simp only [GPN.subtrees_mk] at hm
    rcases mem_updateA hm with hold | hnew
    · exact everyNode_child h hold
    · have hc : c = addPathLoop ic (stepChild ic t (foldChar ic ch)) rest :=
        congrArg Prod.snd hnew
      subst hc
      exact IH _ (everyNode_icaseIs_stepChild ic t (foldChar ic ch) h)

theorem everyNode_icase_buildTrie (ic : Bool) (ps : List (List Nat)) :
    EveryNode (icaseIs ic) (buildTrie ic ps) := by
  suffices h : ∀ acc : GPN, acc.icase = ic → EveryNode (icaseIs ic) acc →
      EveryNode (icaseIs ic) (ps.foldl (fun t p => addPathLoop t.icase t p) acc) by
    exact h (newGlobPathNode ic) rfl (everyNode_newGPN ic (icaseIs_newGPN ic))
  induction ps with
  | nil => intro acc _ hacc; exact hacc
  | cons p rest IHp =>
    intro acc hic hacc
    simp only [List.foldl_cons]
    refine IHp _ (by rw [addPathLoop_icase]; exact hic) ?_
    rw [hic]
    exact everyNode_icaseIs_addPathLoop ic p acc hacc

theorem oneShot_inv {P : GPN → Prop} {cur os : GPN}
    (hc : EveryNode P cur) (hok : oneShotOK cur) (hos : cur.oneShot = some os) :
    EveryNode P os := by
  cases e : cur.subtrees with
  | nil =>
    simp only [oneShotOK, e] at hok
    rw [hok] at hos
    exact absurd hos (by simp)
  | cons kc l2 =>
    cases l2 with
    | nil =>
      simp only [oneShotOK, e] at hok
      rw [hok] at hos
      obtain rfl : kc.2 = os := by simpa using hos
      exact everyNode_child hc (by rw [e]; exact List.mem_singleton_self _)
    | cons kc2 l3 =>
      simp only [oneShotOK, e] at hok
      rw [hok] at hos
      exact absurd hos (by simp)

theorem query_caseFold : ∀ (n : Nat) (s s' : List Nat), s.length ≤ n →
    caseFold s = caseFold s' →
    (∀ g : GPN, EveryNode (fun x => icaseIs true x ∧ oneShotOK x) g →
      checkPath g s = checkPath g s') ∧
    (∀ cur : GPN, EveryNode (fun x => icaseIs true x ∧ oneShotOK x) cur →
      checkLoop true cur s = checkLoop true cur s') ∧
    (∀ g : GPN, EveryNode (fun x => icaseIs true x ∧ oneShotOK x) g →
      globConsume g s = globConsume g s') ∧
    (∀ (g : GPN) (st : Bool), EveryNode (fun x => icaseIs true x ∧ oneShotOK x) g →
      globLoop g st s = globLoop g st s') := by
  intro n
  induction n with
  | zero =>
    intro s s' hlen heq
    have hs : s = [] := List.length_eq_zero.1 (Nat.le_zero.1 hlen)
    subst hs
    have hs' : s' = [] := (caseFold_nil_iff s').1 (by rw [← heq]; rfl)
    subst hs'
    exact ⟨fun g _ => rfl, fun cur _ => rfl, fun g _ => rfl, fun g st _ => rfl⟩
  | succ n IH =>
    intro s s' hlen heq
    cases s with
    | nil =>
      have hs' : s' = [] := (caseFold_nil_iff s').1 (by rw [← heq]; rfl)
      subst hs'
      exact ⟨fun g _ => rfl, fun cur _ => rfl, fun g _ => rfl, fun g st _ => rfl⟩
    | cons ch rest =>
      cases s' with
      | nil => simp [caseFold] at heq
      | cons ch' rest' =>
        simp only [caseFold, List.map_cons, List.cons.injEq] at heq
        have hrlen : rest.length ≤ n := by
          simp only [List.length_cons] at hlen; omega
        have IHs := IH rest rest' hrlen heq.2
        have h4 : ∀ (g : GPN) (st : Bool), EveryNode (fun x => icaseIs true x ∧ oneShotOK x) g →
            globLoop g st (ch :: rest) = globLoop g st (ch' :: rest') := by
          intro g st hg
          have hicase : g.icase = true := (everyNode_self hg).1
          rw [globLoop_cons, globLoop_cons, hicase]
          rw [show foldChar true ch = foldChar true ch' from heq.1]
          cases hskip : (st && (match g.oneShot with
              | some os => decide (foldChar true ch' ≠ os.nodeChar)
              | none => false))
          · simp only [hskip, Bool.false_eq_true, if_false]
            have hhit : (match lookupA g.subtrees (foldChar true ch') with
                | some v => checkPath v rest
                | none => false)
                = (match lookupA g.subtrees (foldChar true ch') with
                | some v => checkPath v rest'
                | none => false) := by
              cases hlk : lookupA g.subtrees (foldChar true ch') with
              | none => rfl
              | some v =>
                simp only
                exact IHs.1 v (everyNode_child hg (lookupA_mem hlk))
            rw [hhit]
            cases hb : (match lookupA g.subtrees (foldChar true ch') with
                | some v => checkPath v rest'
                | none => false)
            · simp only [hb, Bool.false_eq_true, if_false]
              cases rest with
              | nil =>
                cases rest' with
                | nil => rfl
                | cons a b => simp at heq
              | cons a b =>
                cases rest' with
                | nil => simp at heq
                | cons a' b' => exact IHs.2.2.2 g g.oneShot.isSome hg
            · simp [hb]
          · simp only [hskip, if_true]
            exact IHs.2.2.2 g st hg
        have h3 : ∀ g : GPN, EveryNode (fun x => icaseIs true x ∧ oneShotOK x) g →
            globConsume g (ch :: rest) = globConsume g (ch' :: rest') := by
          intro g hg
          rw [globConsume_eq, globConsume_eq]
          cases hcm : g.canMatch
          · simp only [hcm, Bool.false_eq_true, if_false]
            exact h4 g g.oneShot.isSome hg
          · simp [hcm]
        have h2 : ∀ cur : GPN, EveryNode (fun x => icaseIs true x ∧ oneShotOK x) cur →
            checkLoop true cur (ch :: rest) = checkLoop true cur (ch' :: rest') := by
          intro cur hcur
          rw [checkLoop_cons, checkLoop_cons]
          rw [show foldChar true ch = foldChar true ch' from heq.1]
          have hgbeq : (if cur.hasGlobChild then
                match lookupA cur.subtrees globChar with
                | some v => globConsume v (ch :: rest)
                | none => false
              else false)
              = (if cur.hasGlobChild then
                match lookupA cur.subtrees globChar with
                | some v => globConsume v (ch' :: rest')
                | none => false
              else false) := by
            cases hgc : cur.hasGlobChild
            · simp
            · cases hlkg : lookupA cur.subtrees globChar with
              | none => simp
              | some v =>
                simp only
                exact h3 v (everyNode_child hcur (lookupA_mem hlkg))
          rw [hgbeq]
          cases hb : (if cur.hasGlobChild then
                match lookupA cur.subtrees globChar with
                | some v => globConsume v (ch' :: rest')
                | none => false
              else false)
          · cases hos : cur.oneShot with
            | some os =>
              have hosInv := oneShot_inv hcur (everyNode_self hcur).2 hos
              by_cases h1g : os.nodeChar = globChar
              · simp [h1g]
              · simp only [if_neg h1g]
                by_cases h2g : os.nodeChar = foldChar true ch'
                · simp only [if_pos h2g]
                  exact IHs.2.1 os hosInv
                · simp [h2g]
            | none =>
              cases hlk2 : lookupA cur.subtrees (foldChar true ch') with
              | none => rfl
              | some v =>
                simp only
                exact IHs.2.1 v (everyNode_child hcur (lookupA_mem hlk2))
          · rfl
        refine ⟨?_, h2, h3, h4⟩
        intro g hg
        rw [checkPath_eq, checkPath_eq, (everyNode_self hg).1]
        exact h2 g hg

theorem checkPath_caseFold_inv (P P' : List (List Nat)) (c c' : List Nat)
    (hP : List.Forall₂ (fun a b => caseFold a = caseFold b) P P')
    (hc : caseFold c = caseFold c') :
    checkPath (buildTrie true P) c = checkPath (buildTrie true P') c' := by
  rw [buildTrie_caseFold P P' hP]
  have hinv := everyNode_and (everyNode_icase_buildTrie true P')
    (everyNode_oneShotOK_buildTrie true P')
  exact (query_caseFold c.length c c' le_rfl hc).1 _ hinv

theorem heapFrameAux : ∀ n : Nat,
    (∀ h g s b h', checkPathHF n h g s = some (b, h') → h' = h) ∧
    (∀ h ic cur s b h', checkLoopHF n h ic cur s = some (b, h') → h' = h) ∧
    (∀ h g s b h', globConsumeHF n h g s = some (b, h') → h' = h) ∧
    (∀ h g st s b h', globLoopHF n h g st s = some (b, h') → h' = h) := by
  intro n
  induction n with
  | zero =>
    refine ⟨?_, ?_, ?_, ?_⟩ <;> intro h
    · intro g s b h' heq; exact absurd heq (by simp [checkPathHF])
    · intro ic cur s b h' heq; exact absurd heq (by simp [checkLoopHF])
    · intro g s b h' heq; exact absurd heq (by simp [globConsumeHF])
    · intro g st s b h' heq; exact absurd heq (by simp [globLoopHF])
  | succ n IH =>
    refine ⟨?_, ?_, ?_, ?_⟩
    · intro h g s b h' heq
      simp only [checkPathHF] at heq
      exact IH.2.1 _ _ _ _ _ _ heq
    · intro h ic cur s b h' heq
      cases s with
      | nil =>
        simp only [checkLoopHF, Option.some.injEq, Prod.mk.injEq] at heq
        exact heq.2.symm
      | cons ch rest =>
        simp only [checkLoopHF] at heq
        cases hG : (if (hGet h cur).hasGlobChild then
            match lookupH (hGet h cur).subtrees globChar with
            | some v => globConsumeHF n h v (ch :: rest)
            | none => some (false, h)
          else some (false, h)) with
        | none => rw [hG] at heq; simp at heq
        | some p =>
          obtain ⟨bg, h1⟩ := p
          have hh1 : h1 = h := by
            cases hgc : (hGet h cur).hasGlobChild
            · rw [hgc] at hG
              simp at hG
              exact hG.2.symm
            · rw [hgc] at hG
              simp only [if_true] at hG
              cases hlk : lookupH (hGet h cur).subtrees globChar with
              | none =>
                rw [hlk] at hG
                simp at hG
                exact hG.2.symm
              | some v =>
                rw [hlk] at hG
                exact IH.2.2.1 h v (ch :: rest) bg h1 hG
          rw [hG] at heq
          rw [hh1] at heq
          cases bg with
          | true =>
            simp only [Option.some.injEq, Prod.mk.injEq] at heq
            exact heq.2.symm
          | false =>
            simp only at heq
            cases hos : (hGet h cur).oneShot with
            | some os =>
              rw [hos] at heq
              simp only at heq
              by_cases e1 : (hGet h os).nodeChar = globChar
              · rw [if_pos e1] at heq
                simp only [Option.some.injEq, Prod.mk.injEq] at heq
                exact heq.2.symm
              · rw [if_neg e1] at heq
                by_cases e2 : (hGet h os).nodeChar = foldChar ic ch
                · rw [if_pos e2] at heq
                  exact IH.2.1 h ic os rest b h' heq
                · rw [if_neg e2] at heq
                  simp only [Option.some.injEq, Prod.mk.injEq] at heq
                  exact heq.2.symm
            | none =>
              rw [hos] at heq
              simp only at heq
              cases hlk2 : lookupH (hGet h cur).subtrees (foldChar ic ch) with
              | some v =>
                rw [hlk2] at heq
                exact IH.2.1 h ic v rest b h' heq
              | none =>
                rw [hlk2] at heq
                simp only [Option.some.injEq, Prod.mk.injEq] at heq
                exact heq.2.symm
    · intro h g s b h' heq
      simp only [globConsumeHF] at heq
      by_cases hcm : (hGet h g).canMatch = true
      · rw [if_pos hcm] at heq
        simp only [Option.some.injEq, Prod.mk.injEq] at heq
        exact heq.2.symm
      · rw [if_neg hcm] at heq
        exact IH.2.2.2 h g (hGet h g).oneShot.isSome s b h' heq
    · intro h g st s b h' heq
      cases s with
      | nil =>
        simp only [globLoopHF, Option.some.injEq, Prod.mk.injEq] at heq
        exact heq.2.symm
      | cons ch rest =>
        simp only [globLoopHF] at heq
        by_cases hskip : (st && (match (hGet h g).oneShot with
            | some os => decide (foldChar (hGet h g).icase ch ≠ (hGet h os).nodeChar)
            | none => false)) = true
        · rw [if_pos hskip] at heq
          exact IH.2.2.2 h g st rest b h' heq
        · rw [if_neg hskip] at heq
          cases hH : (match lookupH (hGet h g).subtrees (foldChar (hGet h g).icase ch) with
              | some v => checkPathHF n h v rest
              | none => some (false, h)) with
          | none => rw [hH] at heq; simp at heq
          | some p =>
            obtain ⟨bh, h1⟩ := p
            have hh1 : h1 = h := by
              cases hlk : lookupH (hGet h g).subtrees (foldChar (hGet h g).icase ch) with
              | none =>
                rw [hlk] at hH
                simp at hH
                exact hH.2.symm
              | some v =>
                rw [hlk] at hH
                exact IH.1 h v rest bh h1 hH
            rw [hH] at heq
            rw [hh1] at heq
            cases bh with
            | true =>
              simp only [Option.some.injEq, Prod.mk.injEq] at heq
              exact heq.2.symm
            | false =>
              simp only at heq
              cases rest with
              | nil =>
                simp only [Option.some.injEq, Prod.mk.injEq] at heq
                exact heq.2.symm
              | cons c2 r2 =>
                exact IH.2.2.2 h g (hGet h g).oneShot.isSome (c2 :: r2) b h' heq

theorem b64CharInv_b64Char : ∀ n < 64, b64CharInv (b64Char n) = some n := by
  decide

theorem b64_roundtrip_aux : ∀ (k : Nat) (bs : List Nat), bs.length ≤ k →
    (∀ b ∈ bs, b < 256) → b64Decode (b64Encode bs) = some bs := by
  intro k
  induction k with
  | zero =>
    intro bs hlen _
    have : bs = [] := List.length_eq_zero.1 (Nat.le_zero.1 hlen)
    subst this
    rfl
  | succ k IH =>
    intro bs hlen hb
    match bs with
    | [] => rfl
    | [b1] =>
      have h1 : b1 < 256 := hb b1 (by simp)
      show b64Decode [b64Char (b1 / 4), b64Char (b1 % 4 * 16)] = some [b1]
      simp only [b64Decode]
      rw [b64CharInv_b64Char (b1 / 4) (by omega),
        b64CharInv_b64Char (b1 % 4 * 16) (by omega)]
      simp only [Option.some.injEq, List.cons.injEq, and_true]
      omega
    | [b1, b2] =>
      have h1 : b1 < 256 := hb b1 (by simp)
      have h2 : b2 < 256 := hb b2 (by simp)
      show b64Decode [b64Char (b1 / 4), b64Char (b1 % 4 * 16 + b2 / 16),
        b64Char (b2 % 16 * 4)] = some [b1, b2]
      simp only [b64Decode]
      rw [b64CharInv_b64Char (b1 / 4) (by omega),
        b64CharInv_b64Char (b1 % 4 * 16 + b2 / 16) (by omega),
        b64CharInv_b64Char (b2 % 16 * 4) (by omega)]
      simp only [Option.some.injEq, List.cons.injEq, and_true]
      constructor
      · omega
      · omega
    | b1 :: b2 :: b3 :: rest =>
      have h1 : b1 < 256 := hb b1 (by simp)
      have h2 : b2 < 256 := hb b2 (by simp)
      have h3 : b3 < 256 := hb b3 (by simp)
      have hrest : ∀ b ∈ rest, b < 256 := fun b hm => hb b (by simp [hm])
      have hrlen : rest.length ≤ k := by
        simp only [List.length_cons] at hlen; omega
      show b64Decode (b64Char (b1 / 4) :: b64Char (b1 % 4 * 16 + b2 / 16) ::
        b64Char (b2 % 16 * 4 + b3 / 64) :: b64Char (b3 % 64) :: b64Encode rest)
        = some (b1 :: b2 :: b3 :: rest)
      cases e : b64Encode rest with
      | nil =>
        have hre : b64Decode (b64Encode rest) = some rest := IH rest hrlen hrest
        rw [e] at hre
        have hr0 : rest = [] := by
          have h00 : some ([] : List Nat) = some rest := by rw [← hre]; rfl
          simpa using h00
        subst hr0
        simp only [b64Decode]
        rw [b64CharInv_b64Char (b1 / 4) (by omega),
          b64CharInv_b64Char (b1 % 4 * 16 + b2 / 16) (by omega),
          b64CharInv_b64Char (b2 % 16 * 4 + b3 / 64) (by omega),
          b64CharInv_b64Char (b3 % 64) (by omega)]
        simp only [Option.some.injEq, List.cons.injEq]
        refine ⟨by omega, by omega, by omega, trivial⟩
      | cons x xs =>
        have hre : b64Decode (b64Encode rest) = some rest := IH rest hrlen hrest
        rw [e] at hre
        show (match b64CharInv (b64Char (b1 / 4)),
            b64CharInv (b64Char (b1 % 4 * 16 + b2 / 16)),
            b64CharInv (b64Char (b2 % 16 * 4 + b3 / 64)),
            b64CharInv (b64Char (b3 % 64)), b64Decode (x :: xs) with
          | some n1, some n2, some n3, some n4, some bs =>
            some ((n1 * 4 + n2 / 16) :: (n2 % 16 * 16 + n3 / 4) :: (n3 % 4 * 64 + n4) :: bs)
          | _, _, _, _, _ => none) = some (b1 :: b2 :: b3 :: rest)
        rw [b64CharInv_b64Char (b1 / 4) (by omega),
          b64CharInv_b64Char (b1 % 4 * 16 + b2 / 16) (by omega),
          b64CharInv_b64Char (b2 % 16 * 4 + b3 / 64) (by omega),
          b64CharInv_b64Char (b3 % 64) (by omega), hre]
        simp only [Option.some.injEq, List.cons.injEq]
        refine ⟨by omega, by omega, by omega, trivial⟩

theorem b64_roundtrip (bs : List Nat) (hb : ∀ b ∈ bs, b < 256) :
    b64Decode (b64Encode bs) = some bs :=
  b64_roundtrip_aux bs.length bs le_rfl hb

theorem hmacDigest_bytes (key msg : List Nat) :
    ∀ b ∈ hmacDigest key msg, b < 256 := by
  intro b hb
  simp only [hmacDigest, List.mem_cons, List.not_mem_nil, or_false] at hb
  rcases hb with h | h | h | h | h | h | h | h <;> subst h <;> omega

theorem codec_roundtrip (key url : List Nat) (hurl : ∀ b ∈ url, b < 256) :
    B64DecodeURL key (B64EncodeURL key url) = .ok url := by
  simp only [B64DecodeURL, B64EncodeURL]
  rw [b64_roundtrip url hurl, b64_roundtrip _ (hmacDigest_bytes key url)]
  simp

theorem everyNode_lit_fold (P : List (List Nat))
    (hP : ∀ p ∈ P, ∀ ch ∈ p, ch ≠ 42 ∧ ch ≠ 1) :
    ∀ acc : GPN, acc.icase = false →
    EveryNode flagsLitOK acc → EveryNode oneShotOK acc →
    EveryNode flagsLitOK (P.foldl (fun t p => addPathLoop t.icase t p) acc) ∧
    EveryNode oneShotOK (P.foldl (fun t p => addPathLoop t.icase t p) acc) := by
  induction P with
  | nil => intro acc _ h1 h2; exact ⟨h1, h2⟩
  | cons p rest IH =>
    intro acc hic h1 h2
    simp only [List.foldl_cons]
    have hp := hP p (List.mem_cons_self p rest)
    have hrest : ∀ q ∈ rest, ∀ ch ∈ q, ch ≠ 42 ∧ ch ≠ 1 := fun q hq =>
      hP q (List.mem_cons_of_mem p hq)
    refine IH hrest _ (by rw [addPathLoop_icase]; exact hic) ?_ ?_
    · rw [hic]
      exact everyNode_flagsLitOK_addPathLoop p hp _ h1
    · rw [hic]
      exact everyNode_oneShotOK_addPathLoop false p acc h2

/-- C1: on a case-sensitive tree built from printable-ASCII glob-free
patterns, `checkPath` accepts exactly the inserted patterns: a candidate
matches iff it is one of them, so in particular proper prefixes and proper
extensions of an inserted pattern that were not themselves inserted do not
match. -/
theorem claim_C1_glob_free_exact (P : List (List Nat))
    (hP : ∀ p ∈ P, ∀ ch ∈ p, 32 ≤ ch ∧ ch ≤ 126 ∧ ch ≠ 42) :
    ∀ cand : List Nat, (checkPath (buildTrie false P) cand = true ↔ cand ∈ P) := by
  intro cand
  have hP' : ∀ p ∈ P, ∀ ch ∈ p, ch ≠ 42 ∧ ch ≠ 1 := fun p hp ch hch =>
    ⟨(hP p hp ch hch).2.2, by have := (hP p hp ch hch).1; omega⟩
  have hinv := everyNode_lit_fold P hP' (newGlobPathNode false) rfl
    (everyNode_newGPN _ (flagsLitOK_newGPN _)) (everyNode_newGPN _ (oneShotOK_newGPN _))
  have hcomb := everyNode_and hinv.1 hinv.2
  rw [checkPath_eq, buildTrie_icase]
  rw [show buildTrie false P
    = P.foldl (fun t p => addPathLoop t.icase t p) (newGlobPathNode false) from rfl]
  rw [checkLoop_eq_walkLit cand _ hcomb]
  rw [walkLit_build P (newGlobPathNode false) rfl
    (fun p hp ch hch => (hP' p hp ch hch).1) cand]
  simp [walkLit_newGPN]

/-- C1 witness: the concrete trie {"ab"} matches "ab" and nothing else;
"a" (a proper prefix) is not a member and hence does not match. -/
theorem claim_C1_witness :
    (∀ p ∈ [[97, 98]], ∀ ch ∈ p, 32 ≤ ch ∧ ch ≤ 126 ∧ ch ≠ 42) ∧
    (checkPath (buildTrie false [[97, 98]]) [97, 98] = true ↔ [97, 98] ∈ [[97, 98]]) ∧
    (checkPath (buildTrie false [[97, 98]]) [97] = true ↔ [97] ∈ [[97, 98]]) :=
  ⟨by decide, claim_C1_glob_free_exact [[97, 98]] (by decide) [97, 98],
    claim_C1_glob_free_exact [[97, 98]] (by decide) [97]⟩

/-- C2 counterexample: after `addPath "a*"` on a fresh case-sensitive tree,
`checkPath "a"` returns `false` — the trailing wildcard is inspected only
while a character remains to consume, so the bare literal prefix does not
match, contradicting the claim that it does. -/
theorem claim_C2_counterexample :
    checkPath (buildTrie false [[97, 42]]) [97] = false := by decide

/-- C2 amended: for a trailing-wildcard pattern `p ++ "*"` (with `p` free
of `'*'` and of the sentinel byte 1), `checkPath` accepts `p` followed by
any non-empty suffix, but rejects `p` itself. -/
theorem claim_C2_amended (p suffix : List Nat)
    (hp : ∀ ch ∈ p, ch ≠ 42 ∧ ch ≠ 1) (hs : suffix ≠ []) :
    checkPath (buildTrie false [p ++ [42]]) (p ++ suffix) = true ∧
    checkPath (buildTrie false [p ++ [42]]) p = false := by
  have h := trailingGlobAux p hp (newGlobPathNode false) rfl rfl rfl rfl rfl rfl
  constructor
  · rw [checkPath_eq, buildTrie_icase]
    exact h.1 suffix hs
  · rw [checkPath_eq, buildTrie_icase]
    exact h.2

/-- C2 witness: trie {"a*"}: "ab" matches, "a" does not. -/
theorem claim_C2_witness :
    (∀ ch ∈ [97], ch ≠ 42 ∧ ch ≠ 1) ∧ ([98] : List Nat) ≠ [] ∧
    (checkPath (buildTrie false [[97] ++ [42]]) ([97] ++ [98]) = true ∧
      checkPath (buildTrie false [[97] ++ [42]]) [97] = false) :=
  ⟨by decide, by decide, claim_C2_amended [97] [98] (by decide) (by decide)⟩

/-- C3: the single-child fast path does change the match result.  On the
trie built from "a**b" and the candidate "a*yb" (which contains a literal
`'*'`), the shipped `checkPath` returns `true` — the fast path follows the
wildcard child as though it were a literal `'*'` node, because the guard
at lines 181-183 compares the stored character (42) with the sentinel key
(1) and never fires — while the keyed-lookup variant returns `false`.
This contradicts both the specification's assertion that the fast path is
observationally neutral and the source comment at lines 179-180, which
expects that branch to fail. -/
theorem claim_C3_fast_path_divergence :
    checkPath (buildTrie false [[97, 42, 42, 98]]) [97, 42, 121, 98] = true ∧
    checkPathSlow (buildTrie false [[97, 42, 42, 98]]) [97, 42, 121, 98] = false := by
  decide

/-- C4: in a case-insensitive tree the match result depends only on the
case-folded patterns and candidate (so changing the ASCII case of letters
on either side never changes the answer), and concretely
{"Example.COM"} matches "example.com" and vice versa, while the
case-sensitive tree rejects both mismatched-case queries. -/
theorem claim_C4_icase_invariance :
    (∀ (P P' : List (List Nat)) (c c' : List Nat),
      List.Forall₂ (fun a b => caseFold a = caseFold b) P P' →
      caseFold c = caseFold c' →
      checkPath (buildTrie true P) c = checkPath (buildTrie true P') c') ∧
    checkPath (buildTrie true [exampleUpper]) exampleLower = true ∧
    checkPath (buildTrie true [exampleLower]) exampleUpper = true ∧
    checkPath (buildTrie false [exampleUpper]) exampleLower = false ∧
    checkPath (buildTrie false [exampleLower]) exampleUpper = false := by
  refine ⟨checkPath_caseFold_inv, by decide, by decide, by decide, by decide⟩

/-- C4 witness: the invariance applied at {"Example.COM"} vs
{"example.com"} and candidates "example.com" vs "EXAMPLE.COM". -/
theorem claim_C4_witness :
    List.Forall₂ (fun a b => caseFold a = caseFold b) [exampleUpper] [exampleLower] ∧
    caseFold exampleLower = caseFold exampleUpper ∧
    checkPath (buildTrie true [exampleUpper]) exampleLower
      = checkPath (buildTrie true [exampleLower]) exampleUpper :=
  ⟨by decide, by decide,
    claim_C4_icase_invariance.1 [exampleUpper] [exampleLower] exampleLower exampleUpper
      (by decide) (by decide)⟩

/-- C5: a glob-free pattern `p` (no `'*'`, no sentinel byte), once
inserted, keeps matching: whatever patterns were inserted before and
whatever patterns are inserted afterwards, `checkPath p` is `true`, and
the node at the end of `p`'s keyed path exists with its `canMatch` flag
set — later insertions never clear it. -/
theorem claim_C5_match_persists (P1 P2 : List (List Nat)) (p : List Nat)
    (hp : ∀ ch ∈ p, ch ≠ 42 ∧ ch ≠ 1) :
    checkPath (buildTrie false (P1 ++ p :: P2)) p = true ∧
    ∃ n, descend (buildTrie false (P1 ++ p :: P2)) p = some n ∧ n.canMatch = true := by
  have hp42 : ∀ ch ∈ p, ch ≠ 42 := fun ch h => (hp ch h).1
  have hp1 : ∀ ch ∈ p, ch ≠ 1 := fun ch h => (hp ch h).2
  have hsplit : buildTrie false (P1 ++ p :: P2)
      = (p :: P2).foldl (fun t q => addPathLoop t.icase t q)
          (P1.foldl (fun t q => addPathLoop t.icase t q) (newGlobPathNode false)) := by
    simp only [buildTrie, List.foldl_append]
  have hic1 : (P1.foldl (fun t q => addPathLoop t.icase t q)
      (newGlobPathNode false)).icase = false := foldl_addPath_icase P1 _
  have hpOK2 : pathOK (buildTrie false (P1 ++ p :: P2)) p := by
    rw [hsplit]
    simp only [List.foldl_cons]
    apply pathOK_foldl p hp1 P2
    · rw [addPathLoop_icase]; exact hic1
    · rw [hic1]
      exact pathOK_addPathLoop_self p hp42 _
  have hone := everyNode_oneShotOK_buildTrie false (P1 ++ p :: P2)
  constructor
  · rw [checkPath_eq, buildTrie_icase]
    exact pathOK_checkLoop p hp1 _ hone hpOK2
  · exact pathOK_descend p _ hpOK2

/-- C5 witness: insert "a", then "b", then "bc"; "b" still matches and its
terminal node still carries `canMatch`. -/
theorem claim_C5_witness :
    (∀ ch ∈ [98], ch ≠ 42 ∧ ch ≠ 1) ∧
    (checkPath (buildTrie false ([[97]] ++ [98] :: [[98, 99]])) [98] = true ∧
      ∃ n, descend (buildTrie false ([[97]] ++ [98] :: [[98, 99]])) [98] = some n ∧
        n.canMatch = true) :=
  ⟨by decide, claim_C5_match_persists [[97]] [[98, 99]] [98] (by decide)⟩

/-- C6: in every trie built by `addPath` calls from `newGlobPathNode`,
every node satisfies the fast-path invariant `oneShotOK`: `oneShot` holds
the unique child exactly when the child map has exactly one entry, and is
`none` the moment the map is empty or has gained a second entry. -/
theorem claim_C6_oneShot_invariant (ic : Bool) (ps : List (List Nat)) :
    EveryNode oneShotOK (buildTrie ic ps) :=
  everyNode_oneShotOK_buildTrie ic ps

/-- C7: `addPath` fails — with exactly the source's error message — iff
the receiver's child map is the nil map, in which case nothing is
modified (no trie is produced); on a non-nil receiver it always succeeds,
and `newGlobPathNode` always initializes a non-nil map, so a properly
constructed trie never sees the error. -/
theorem claim_C7_addPath_error_iff (g : GPN) (s : List Nat) :
    ((addPath g s = .error "got nil <gpn>.subtrees in receiver") ↔
      g.subtMapNil = true) ∧
    (g.subtMapNil = false → addPath g s = .ok (addPathLoop g.icase g s)) ∧
    (∀ ic : Bool, (newGlobPathNode ic).subtMapNil = false) := by
  refine ⟨⟨?_, ?_⟩, ?_, fun ic => rfl⟩
  · intro h
    by_cases e : g.subtMapNil = true
    · exact e
    · simp [addPath, e] at h
  · intro e
    simp [addPath, e]
  · intro e
    simp [addPath, e]

/-- C7 witness: on the freshly constructed root the map is non-nil and
`addPath "a"` succeeds. -/
theorem claim_C7_witness :
    (newGlobPathNode false).subtMapNil = false ∧
    addPath (newGlobPathNode false) [97]
      = .ok (addPathLoop (newGlobPathNode false).icase (newGlobPathNode false) [97]) :=
  ⟨rfl, (claim_C7_addPath_error_iff (newGlobPathNode false) [97]).2.1 rfl⟩

/-- C8: the store-threading embeddings of `checkPath` and `globConsume`
return the store they were given: a query never mutates any node of the
trie, whatever the heap, start node, candidate and fuel. -/
theorem claim_C8_queries_readonly (n : Nat) (h : List HNode) (g : Nat) (s : List Nat) :
    ((checkPathHF n h g s).map Prod.snd).getD h = h ∧
    ((globConsumeHF n h g s).map Prod.snd).getD h = h := by
  constructor
  · cases e : checkPathHF n h g s with
    | none => rfl
    | some pr =>
      obtain ⟨b, h'⟩ := pr
      simp only [e, Option.map_some', Option.getD_some]
      exact (heapFrameAux n).1 h g s b h' e
  · cases e : globConsumeHF n h g s with
    | none => rfl
    | some pr =>
      obtain ⟨b, h'⟩ := pr
      simp only [e, Option.map_some', Option.getD_some]
      exact (heapFrameAux n).2.2.1 h g s b h' e

/-- C9: the signature codec round-trips: decoding an encoded token with
the same key recovers exactly the original URL bytes; `encode` is a
function of `(key, url)`, hence deterministic. -/
theorem claim_C9_codec_roundtrip (key url : List Nat)
    (hurl : ∀ b ∈ url, b < 256) :
    B64DecodeURL key (B64EncodeURL key url) = .ok url :=
  codec_roundtrip key url hurl

/-- C9 witness: round trip of the URL "http" under the key [1, 2, 3]. -/
theorem claim_C9_witness :
    (∀ b ∈ [104, 116, 116, 112], b < 256) ∧
    B64DecodeURL [1, 2, 3] (B64EncodeURL [1, 2, 3] [104, 116, 116, 112])
      = .ok [104, 116, 116, 112] :=
  ⟨by decide, claim_C9_codec_roundtrip [1, 2, 3] [104, 116, 116, 112] (by decide)⟩

/-- C10: the mutual recursion of `checkPath` and `globConsume` terminates
on every trie and candidate: linear fuel `4·|s| + 4` (each resumed walk
starts strictly past the position that entered the wildcard, so the
unconsumed suffix shrinks) already makes the fuel-indexed functions return
a value, namely the total functions' result, and so does any larger
fuel. -/
theorem claim_C10_termination (g : GPN) (s : List Nat) (n : Nat)
    (hn : 4 * s.length + 4 ≤ n) :
    checkPathF n g s = some (checkPath g s) ∧
    ∀ m, 4 * s.length + 2 ≤ m → globConsumeF m g s = some (globConsume g s) :=
  ⟨(canonAux n).1 g s hn, fun m hm => (canonAux m).2.2.1 g s hm⟩

/-- C10 witness: at fuel 8 the fuel-indexed query on the one-character
candidate "a" over the fresh node already yields its value. -/
theorem claim_C10_witness :
    4 * ([97] : List Nat).length + 4 ≤ 8 ∧
    checkPathF 8 (newGlobPathNode false) [97]
      = some (checkPath (newGlobPathNode false) [97]) :=
  ⟨by decide, (claim_C10_termination (newGlobPathNode false) [97] 8 (by decide)).1⟩
